import Mathlib

/-!
# Verification development for `vector.h` (class template `Vector<T>`)

A shallow embedding of the container of `src/vector.h`.

* The three private members `array_`, `size_`, `capacity_` become the fields of
  the structure `Vector`.  The heap block behind `array_` is a list of slots:
  `none` is the null pointer, `some b` a block of exactly `b.length` slots.
* `size_t` is `Nat`; the places where the source does arithmetic on it
  (`size_ - 1`, `capacity_ * 2`, `size_++`) are reduced modulo `2 ^ 64`.
* Every operation that touches the block returns an `Except`: the error
  `Fault.ub` stands for an access through a null pointer, outside the block or
  through a reference into a released block; `Fault.thrown v` stands for a C++
  exception leaving the member function with the container in state `v`.
* `new T[n]` always succeeds and yields `n` slots holding `T()`.
* Element operations do not throw, except the two copies of the argument made
  by `PushBack(const T&)`, where a fault can be injected; a copy that throws
  has not written its target.
* `operator==` and `operator<` are the loops of `std::equal` and
  `std::lexicographical_compare` over the two blocks, for an element type with
  a decidable equality, respectively a linear order.
* Moving an element out of a block that is released right afterwards
  (`Reserve`, `ShrinkToFit`) leaves no trace; moving out of the parameter of
  `Resize(size_t, T)` leaves it in the state `Element.moved`.
-/

namespace VectorH

/-- Largest value of `size_t` (64-bit). -/
def SIZE_MAX : Nat := 2 ^ 64 - 1

/-- Largest value of `ptrdiff_t`: no array object has more slots than this. -/
def PTRDIFF_MAX : Nat := 2 ^ 63 - 1

/-- Reduction of an arithmetic result to `size_t`. -/
def wrap (n : Nat) : Nat := n % 2 ^ 64

/-- What the container needs from its element type: the value of `T()` and
the value an object is left with once it has been moved from. -/
class Element (T : Type) where
  dflt : T
  moved : T → T

/-- The private members of `Vector<T>` (lines 420-422). -/
structure Vector (T : Type) where
  array_ : Option (List T)
  size_ : Nat
  capacity_ : Nat
deriving DecidableEq

/-- Abnormal ends of a member function. -/
inductive Fault (T : Type) where
  | ub : Fault T
  | thrown (v : Vector T) : Fault T
deriving DecidableEq

deriving instance DecidableEq for Except

/-- Outcome of a member function. -/
abbrev Res (T : Type) (α : Type) : Type := Except (Fault T) α

section Memory

variable {T : Type}

/-- The expression `new T[n]`. -/
def new_array [Element T] (n : Nat) : Option (List T) :=
  some (List.replicate n Element.dflt)

/-- Number of slots of a block (0 for the null pointer). -/
def blen (a : Option (List T)) : Nat :=
  match a with
  | none => 0
  | some b => b.length

/-- Read of `a[i]`. -/
def rd (a : Option (List T)) (i : Nat) : Res T T :=
  match a with
  | none => .error .ub
  | some b =>
    match b[i]? with
    | none => .error .ub
    | some x => .ok x

/-- Store `a[i] = x`. -/
def wr (a : Option (List T)) (i : Nat) (x : T) : Res T (Option (List T)) :=
  match a with
  | none => .error .ub
  | some b => if i < b.length then .ok (some (b.set i x)) else .error .ub

/-- The loop `for (size_t i = lo; i < lo + cnt; i++) body`. -/
def forLoop {σ ε : Type} (body : Nat → σ → Except ε σ) :
    Nat → Nat → σ → Except ε σ
  | _, 0, s => .ok s
  | i, k + 1, s =>
    match body i s with
    | .error e => .error e
    | .ok s1 => forLoop body (i + 1) k s1

/-- Element-wise transfer of `src[0 .. n)` into `dst[0 .. n)`: the loop
`for (i = 0; i < n; i++) dst[i] = std::move(src[i])` of `Reserve` and
`ShrinkToFit`, and `std::copy(src, src + n, dst)`. -/
def copy_n (src : Option (List T)) (n : Nat) (dst : Option (List T)) :
    Res T (Option (List T)) :=
  forLoop (fun i d => (rd src i).bind (fun x => wr d i x)) 0 n dst

/-- The only abnormal end of `m` is `Fault.ub`. -/
def OnlyUB {α : Type} (m : Res T α) : Prop := ∀ e, m = .error e → e = Fault.ub

/-- The property `P` holds of the state a run leaves behind, by return or by
throw. -/
def Post (P : Vector T → Prop) (r : Res T (Vector T)) : Prop :=
  match r with
  | .ok v => P v
  | .error (.thrown v) => P v
  | .error .ub => True

end Memory

namespace Vector

variable {T : Type}

/-- `Vector()` (line 14). -/
def ctor : Vector T := { array_ := none, size_ := 0, capacity_ := 0 }

/-- `Vector(size_t num)` (lines 17-33). -/
def ctor_num [Element T] (num : Nat) : Res T (Vector T) :=
  if num > 0 then
    (forLoop (fun i a => wr a i (Element.dflt : T)) 0 num (new_array num)).bind
      (fun a => .ok { array_ := a, size_ := num, capacity_ := num })
  else .ok { array_ := none, size_ := 0, capacity_ := 0 }

/-- `Vector(size_t num, T value)` (lines 35-48). -/
def ctor_fill (num : Nat) (value : T) : Vector T :=
  if num > 0 then { array_ := some (List.replicate num value), size_ := num, capacity_ := num }
  else { array_ := none, size_ := 0, capacity_ := num }

/-- `Vector(Iterator first, Iterator second)` (lines 50-67); `l` is the
sequence the range runs over. -/
def ctor_range (l : List T) : Vector T :=
  if l.length > 0 then { array_ := some l, size_ := l.length, capacity_ := l.length }
  else { array_ := none, size_ := 0, capacity_ := 0 }

/-- `Vector(std::initializer_list<T> list)` (lines 69-83). -/
def ctor_list (list : List T) : Vector T :=
  if list.length ≠ 0 then
    { array_ := some list, size_ := list.length, capacity_ := list.length }
  else { array_ := none, size_ := 0, capacity_ := 0 }

/-- `Vector(const Vector& other)` (lines 85-99). -/
def ctor_copy [Element T] (other : Vector T) : Res T (Vector T) :=
  if other.size_ ≠ 0 then
    (copy_n other.array_ other.size_ (new_array other.size_)).bind
      (fun a => .ok { array_ := a, size_ := other.size_, capacity_ := other.capacity_ })
  else .ok { array_ := none, size_ := other.size_, capacity_ := other.capacity_ }

/-- `operator=(const Vector& other)` (lines 101-113); `same` tells that
`this == &other`. -/
def assign_copy [Element T] (this other : Vector T) (same : Bool) : Res T (Vector T) :=
  if same then .ok this
  else
    (copy_n other.array_ other.size_
        (if other.size_ ≠ 0 then new_array other.size_ else none)).bind
      (fun a => .ok { array_ := a, size_ := other.size_, capacity_ := other.capacity_ })

/-- `Vector(Vector&& other)` (lines 115-119): the new object and what is left
of `other`. -/
def ctor_move (other : Vector T) : Vector T × Vector T :=
  ({ array_ := other.array_, size_ := other.size_, capacity_ := other.capacity_ },
   { array_ := none, size_ := 0, capacity_ := 0 })

/-- `operator=(Vector&& other)` (lines 121-132): `*this` and `other` afterwards. -/
def assign_move (this other : Vector T) (same : Bool) : Vector T × Vector T :=
  if same then (this, this)
  else
    ({ array_ := other.array_, size_ := other.size_, capacity_ := other.capacity_ },
     { array_ := none, size_ := 0, capacity_ := 0 })

/-- `Size()` (line 138). -/
def Size (v : Vector T) : Nat := v.size_

/-- `Capacity()` (line 142). -/
def Capacity (v : Vector T) : Nat := v.capacity_

/-- `Empty()` (line 146). -/
def Empty (v : Vector T) : Bool := decide (v.size_ = 0)

/-- The assignment `v[i] = x` through the reference that `operator[]` returns
(lines 150-152). -/
def store (v : Vector T) (i : Nat) (x : T) : Res T (Vector T) :=
  (wr v.array_ i x).bind fun a =>
  .ok { array_ := a, size_ := v.size_, capacity_ := v.capacity_ }

/-- `Swap(Vector& other)` (lines 196-200): `*this` and `other` afterwards. -/
def Swap (this other : Vector T) : Vector T × Vector T :=
  ({ array_ := other.array_, size_ := other.size_, capacity_ := other.capacity_ },
   { array_ := this.array_, size_ := this.size_, capacity_ := this.capacity_ })

/-- What a call does to the block the container holds on entry: `array_`
still points to it, `array_` points elsewhere and the block was not released,
or the block was passed to `delete[]`. -/
inductive BlockFate where
  | kept : BlockFate
  | replaced : BlockFate
  | released : BlockFate
deriving DecidableEq

/-- Fate of a block over two calls in a row. -/
def BlockFate.andThen (f1 f2 : BlockFate) : BlockFate :=
  match f1 with
  | .kept => f2
  | .replaced => .replaced
  | .released => .released

/-- `Reserve(size_t new_cap)` (lines 242-276).  The second component is the
fate of the block the container held on entry. -/
def Reserve_traced [Element T] (v : Vector T) (new_cap : Nat) :
    Res T (Vector T × BlockFate) :=
  if new_cap = v.capacity_ then .ok (v, .kept)
  else if new_cap = 0 then .ok ({ array_ := none, size_ := 0, capacity_ := 0 }, .released)
  else if v.capacity_ = 0 then
    .ok ({ array_ := new_array new_cap, size_ := v.size_, capacity_ := new_cap }, .replaced)
  else
    let v1 : Vector T :=
      if v.size_ = 0 then { array_ := new_array new_cap, size_ := v.size_, capacity_ := new_cap }
      else v
    if new_cap < v1.capacity_ then .ok (v1, if v.size_ = 0 then .released else .kept)
    else
      (copy_n v1.array_ v1.size_ (new_array new_cap)).bind
        (fun tmp =>
          .ok ({ array_ := tmp, size_ := v1.size_, capacity_ := new_cap }, .released))

/-- `Reserve(size_t new_cap)` (lines 242-276): the container afterwards. -/
def Reserve [Element T] (v : Vector T) (new_cap : Nat) : Res T (Vector T) :=
  (Reserve_traced v new_cap).map Prod.fst

/-- `Resize(size_t new_size)` (lines 202-219). -/
def Resize [Element T] (v : Vector T) (new_size : Nat) : Res T (Vector T) :=
  if new_size ≤ 0 then .ok { array_ := none, size_ := 0, capacity_ := 0 }
  else if new_size ≤ v.size_ then .ok { v with size_ := new_size }
  else
    (if new_size > v.capacity_ then Reserve v new_size else .ok v).bind fun v1 =>
    (forLoop (fun i a => wr a i (Element.dflt : T)) v1.size_ (new_size - v1.size_)
        v1.array_).bind fun a =>
    .ok { array_ := a, size_ := new_size, capacity_ := v1.capacity_ }

/-- `Resize(size_t new_size, T value)` (lines 221-240).  The loop state is the
block together with the parameter `value`, which every
`array_[i] = std::move(value)` leaves moved from. -/
def Resize_value [Element T] (v : Vector T) (new_size : Nat) (value : T) : Res T (Vector T) :=
  if new_size ≤ 0 then .ok { array_ := none, size_ := 0, capacity_ := 0 }
  else if new_size ≤ v.size_ then .ok { v with size_ := new_size }
  else
    (if new_size > v.capacity_ then Reserve v new_size else .ok v).bind fun v1 =>
    (forLoop
        (fun i (s : Option (List T) × T) =>
          (wr s.1 i s.2).bind fun a => .ok (a, Element.moved s.2))
        v1.size_ (new_size - v1.size_) (v1.array_, value)).bind fun s =>
    .ok { array_ := s.1, size_ := new_size, capacity_ := v1.capacity_ }

/-- `ShrinkToFit()` (lines 278-294). -/
def ShrinkToFit [Element T] (v : Vector T) : Res T (Vector T) :=
  let v1 : Vector T :=
    if v.size_ = 0 then { array_ := none, size_ := v.size_, capacity_ := 0 } else v
  if v1.size_ = v1.capacity_ then .ok v1
  else
    (copy_n v1.array_ v1.size_ (new_array v1.size_)).bind
      (fun tmp => .ok { array_ := tmp, size_ := v1.size_, capacity_ := v1.size_ })

/-- `Clear()` (lines 296-298). -/
def Clear (v : Vector T) : Vector T := { v with size_ := 0 }

/-- The argument of `PushBack(const T& el1)`: a reference to an object outside
the container, or to slot `i` of the block the container holds at the call. -/
inductive Ref (T : Type) where
  | ext (x : T) : Ref T
  | own (i : Nat) : Ref T
deriving DecidableEq

/-- The two places where `PushBack(const T&)` copies its argument into the
block: `array_[size_ - 1] = el1` (line 303) and `array_[size_] = el1`
(line 316). -/
inductive CopySite where
  | probe : CopySite
  | store : CopySite
deriving DecidableEq

/-- Read through the reference `el1`; `entry` is the block the container held
at the call, with its present contents, and `fate` what has become of it. -/
def deref (fate : BlockFate) (entry : Option (List T)) (el1 : Ref T) : Res T T :=
  match el1 with
  | .ext x => .ok x
  | .own i => if fate = .released then .error .ub else rd entry i

/-- `PushBack(const T& el1)` (lines 300-321).  `fault` names the copy of the
argument that throws, if one does; a copy that throws leaves its target as it
was. -/
def PushBack_copy [Element T] (fault : Option CopySite) (v : Vector T) (el1 : Ref T) :
    Res T (Vector T) :=
  let last := wrap (v.size_ + SIZE_MAX)
  (rd v.array_ last).bind fun tmp_old =>
  (deref .kept v.array_ el1).bind fun x =>
  if fault = some CopySite.probe then .error (.thrown v)
  else
    (wr v.array_ last x).bind fun a1 =>
    (wr a1 last tmp_old).bind fun a2 =>
    let v0 : Vector T := { array_ := a2, size_ := v.size_, capacity_ := v.capacity_ }
    (if v0.capacity_ = 0 then Reserve_traced v0 1 else .ok (v0, .kept)).bind fun r1 =>
    (if r1.1.size_ = r1.1.capacity_ then Reserve_traced r1.1 (wrap (r1.1.capacity_ * 2))
      else .ok (r1.1, .kept)).bind fun r2 =>
    (deref (r1.2.andThen r2.2) a2 el1).bind fun y =>
    if fault = some CopySite.store then .error (.thrown r2.1)
    else
      (wr r2.1.array_ r2.1.size_ y).bind fun a3 =>
      .ok { array_ := a3, size_ := wrap (r2.1.size_ + 1), capacity_ := r2.1.capacity_ }

/-- `PushBack(T&& el2)` (lines 323-334). -/
def PushBack_move [Element T] (v : Vector T) (el2 : T) : Res T (Vector T) :=
  (if v.capacity_ = 0 then Reserve v 1 else .ok v).bind fun v1 =>
  (if v1.size_ = v1.capacity_ then Reserve v1 (wrap (v1.capacity_ * 2)) else .ok v1).bind
    fun v2 =>
  (wr v2.array_ v2.size_ el2).bind fun a =>
  .ok { array_ := a, size_ := wrap (v2.size_ + 1), capacity_ := v2.capacity_ }

/-- `PopBack()` (lines 336-342): the returned flag and the container afterwards. -/
def PopBack (v : Vector T) : Bool × Vector T :=
  if v.Empty then (false, v) else (true, { v with size_ := v.size_ - 1 })

/-- Number of slots of the block behind `array_` (0 for the null pointer). -/
def slots (v : Vector T) : Nat := blen v.array_

/-- The live elements: the contents of positions `[0, size_)`. -/
def live (v : Vector T) : List T :=
  match v.array_ with
  | none => []
  | some b => b.take v.size_

/-- The data-model invariants: `size ≤ capacity`, the block is absent iff
`capacity == 0`, and a block that is present has exactly `capacity` slots. -/
structure Valid (v : Vector T) : Prop where
  size_le : v.size_ ≤ v.capacity_
  absent_iff : v.array_ = none ↔ v.capacity_ = 0
  slots_eq : v.slots = v.capacity_

/-- What every member function keeps, whatever `capacity_` reports: the live
range lies inside the block and the block has at most `capacity_` slots. -/
def Inv (v : Vector T) : Prop := v.size_ ≤ v.slots ∧ v.slots ≤ v.capacity_

/-- The reachable states: what a constructor builds, and what a public
operation leaves behind, whether it returns or throws, when run on reachable
containers; `by_store` is a write to an element through `operator[]`, `At`,
`Front`, `Back`, `Data` or an iterator.  A run that ends in `Fault.ub` leaves
no state behind. -/
inductive Reach [Element T] : Vector T → Prop where
  | by_ctor : Reach ctor
  | by_ctor_num (num : Nat) {v : Vector T} : ctor_num num = .ok v → Reach v
  | by_ctor_fill (num : Nat) (value : T) : Reach (ctor_fill num value)
  | by_ctor_range (l : List T) : Reach (ctor_range l)
  | by_ctor_list (l : List T) : Reach (ctor_list l)
  | by_ctor_copy {o v : Vector T} : Reach o → ctor_copy o = .ok v → Reach v
  | by_ctor_move_new {o : Vector T} : Reach o → Reach (ctor_move o).1
  | by_ctor_move_src {o : Vector T} : Reach o → Reach (ctor_move o).2
  | by_assign_copy {a o v : Vector T} (same : Bool) :
      Reach a → Reach o → assign_copy a o same = .ok v → Reach v
  | by_assign_move_this {a o : Vector T} (same : Bool) :
      Reach a → Reach o → Reach (assign_move a o same).1
  | by_assign_move_other {a o : Vector T} (same : Bool) :
      Reach a → Reach o → Reach (assign_move a o same).2
  | by_swap_this {a o : Vector T} : Reach a → Reach o → Reach (Swap a o).1
  | by_swap_other {a o : Vector T} : Reach a → Reach o → Reach (Swap a o).2
  | by_resize {a v : Vector T} (n : Nat) : Reach a → Resize a n = .ok v → Reach v
  | by_resize_value {a v : Vector T} (n : Nat) (value : T) :
      Reach a → Resize_value a n value = .ok v → Reach v
  | by_reserve {a v : Vector T} (n : Nat) : Reach a → Reserve a n = .ok v → Reach v
  | by_shrink {a v : Vector T} : Reach a → ShrinkToFit a = .ok v → Reach v
  | by_clear {a : Vector T} : Reach a → Reach (Clear a)
  | by_push_copy {a v : Vector T} (fault : Option CopySite) (el1 : Ref T) :
      Reach a → PushBack_copy fault a el1 = .ok v → Reach v
  | by_push_copy_thrown {a v : Vector T} (fault : Option CopySite) (el1 : Ref T) :
      Reach a → PushBack_copy fault a el1 = .error (.thrown v) → Reach v
  | by_push_move {a v : Vector T} (el2 : T) : Reach a → PushBack_move a el2 = .ok v → Reach v
  | by_pop {a : Vector T} : Reach a → Reach (PopBack a).2
  | by_store {a v : Vector T} (i : Nat) (x : T) : Reach a → store a i x = .ok v → Reach v

/-- `operator[](size_t i)` (lines 150-156): the element read. -/
def index (v : Vector T) (i : Nat) : Res T T := rd v.array_ i

/-- `At(size_t i)` (lines 158-170): the element read and the container
afterwards; the exception is `std::out_of_range`. -/
def At (v : Vector T) (i : Nat) : Res T (T × Vector T) :=
  if i ≥ v.size_ then .error (.thrown v)
  else (rd v.array_ i).bind fun x => .ok (x, v)

/-- `std::equal(p + i, p + i + k, q + i)`: element-wise comparison that stops
at the first pair that differs. -/
def equal_n [DecidableEq T] (p q : Option (List T)) : Nat → Nat → Res T Bool
  | _, 0 => .ok true
  | i, k + 1 =>
    (rd p i).bind fun x =>
    (rd q i).bind fun y =>
    if x = y then equal_n p q (i + 1) k else .ok false

/-- `operator==(const Vector& other)` (lines 344-349). -/
def op_eq [DecidableEq T] (this other : Vector T) : Res T Bool :=
  if this.size_ ≠ other.size_ then .ok false
  else equal_n this.array_ other.array_ 0 this.size_

/-- `std::lexicographical_compare(p + i, p + i + k1, q + i, q + i + k2)`: the
loop runs while both ranges have elements, returns at the first pair ordered
either way, and otherwise tells whether only the first range has run out. -/
def lexicographical_compare [LinearOrder T] (p q : Option (List T)) :
    Nat → Nat → Nat → Res T Bool
  | _, 0, k2 => .ok (decide (k2 ≠ 0))
  | _, _ + 1, 0 => .ok false
  | i, k1 + 1, k2 + 1 =>
    (rd p i).bind fun x =>
    (rd q i).bind fun y =>
    if x < y then .ok true
    else if y < x then .ok false
    else lexicographical_compare p q (i + 1) k1 k2

/-- `operator<(const Vector& other)` (lines 355-357). -/
def op_lt [LinearOrder T] (this other : Vector T) : Res T Bool :=
  lexicographical_compare this.array_ other.array_ 0 this.size_ other.size_

/-- Lexicographic order on sequences in the words of the specification: there
is a first position where the two differ and the left element is less there,
or the left sequence is a strict prefix of the right one. -/
def LexLess [LinearOrder T] (la lb : List T) : Prop :=
  (∃ k x y, la[k]? = some x ∧ lb[k]? = some y ∧ la.take k = lb.take k ∧ x < y) ∨
    (la.length < lb.length ∧ lb.take la.length = la)

/-- The comparison loop of `std::lexicographical_compare` on two sequences. -/
def lexLt [LinearOrder T] : List T → List T → Bool
  | [], [] => false
  | [], _ :: _ => true
  | _ :: _, [] => false
  | x :: xs, y :: ys => if x < y then true else if y < x then false else lexLt xs ys

/-- The contents of positions `[i, i + k)` of a block. -/
def view (a : Option (List T)) (i k : Nat) : List T :=
  match a with
  | none => []
  | some b => (b.drop i).take k

/-- The calls `PushBack(std::move(x))` for the elements `x` of `xs` in turn;
the second component counts the calls that changed `Capacity()`. -/
def push_all [Element T] (v : Vector T) : List T → Res T (Vector T × Nat)
  | [] => .ok (v, 0)
  | x :: xs =>
    (PushBack_move v x).bind fun v1 =>
    (push_all v1 xs).bind fun r =>
    .ok (r.1, r.2 + (if v1.capacity_ = v.capacity_ then 0 else 1))

end Vector

/-- Element type `int`. -/
instance : Element Nat where
  dflt := 0
  moved := id

/-- Element type whose move empties its source, as `std::vector<int>`. -/
instance : Element (List Nat) where
  dflt := []
  moved := fun _ => []

namespace Vector

/-- Sample state: one live element in a full one-slot block, as left by
`Vector<int>{7}`. -/
def sample_one : Vector Nat := { array_ := some [7], size_ := 1, capacity_ := 1 }

/-- Sample state: `Vector<int>{1, 2, 3, 4}`. -/
def sample_four : Vector Nat := ctor_list [1, 2, 3, 4]

/-- Sample state: `Vector<int>{1, 2, 3, 4}` after `Clear()`. -/
def sample_cleared : Vector Nat := Clear sample_four

/-- Sample state: `Vector<int>{1, 2, 3, 4}` after two calls of `PopBack()`. -/
def sample_popped : Vector Nat := (PopBack (PopBack sample_four).2).2

/-- Sample state: the members of a copy of `sample_cleared`. -/
def copy_of_cleared : Vector Nat := { array_ := none, size_ := 0, capacity_ := 4 }

/-- Sample state: the empty container after `PushBack(1)`, `PushBack(2)`,
`PushBack(3)`. -/
def sample_pushed : Vector Nat := { array_ := some [1, 2, 3, 0], size_ := 3, capacity_ := 4 }

/-- Sample state: `sample_pushed` after two calls of `PopBack()`. -/
def sample_scenario : Vector Nat := (PopBack (PopBack sample_pushed).2).2

/-- Sample state: the members of a copy of `sample_popped`. -/
def copy_of_popped : Vector Nat := { array_ := some [1, 2], size_ := 2, capacity_ := 4 }

end Vector

section MemoryLemmas

variable {T : Type}

@[simp] theorem blen_none : blen (none : Option (List T)) = 0 := rfl

@[simp] theorem blen_some (b : List T) : blen (some b) = b.length := rfl

@[simp] theorem blen_new_array [Element T] (n : Nat) :
    blen (new_array n : Option (List T)) = n := by
  simp [new_array]

theorem rd_ok {a : Option (List T)} {i : Nat} {x : T} (h : rd a i = .ok x) :
    ∃ b, a = some b ∧ b[i]? = some x := by
  cases a with
  | none => simp [rd] at h
  | some b =>
    refine ⟨b, rfl, ?_⟩
    cases hb : b[i]? with
    | none => simp [rd, hb] at h
    | some y =>
      simp [rd, hb] at h
      simp [h]

theorem rd_some {b : List T} {i : Nat} (h : i < b.length) : rd (some b) i = .ok b[i] := by
  simp [rd, List.getElem?_eq_getElem h]

theorem wr_ok {a a1 : Option (List T)} {i : Nat} {x : T} (h : wr a i x = .ok a1) :
    ∃ b, a = some b ∧ i < b.length ∧ a1 = some (b.set i x) := by
  cases a with
  | none => simp [wr] at h
  | some b =>
    by_cases hi : i < b.length
    · simp [wr, hi] at h
      exact ⟨b, rfl, hi, h.symm⟩
    · simp [wr, hi] at h

theorem wr_some {b : List T} {i : Nat} (x : T) (h : i < b.length) :
    wr (some b) i x = .ok (some (b.set i x)) := by
  simp [wr, h]

theorem wr_blen {a a1 : Option (List T)} {i : Nat} {x : T} (h : wr a i x = .ok a1) :
    blen a1 = blen a ∧ i < blen a := by
  obtain ⟨b, rfl, hi, rfl⟩ := wr_ok h
  simp [hi]

theorem bind_ok {ε α β : Type} {m : Except ε α} {f : α → Except ε β} {y : β}
    (h : m.bind f = .ok y) : ∃ x, m = .ok x ∧ f x = .ok y := by
  cases m with
  | error e => simp [Except.bind] at h
  | ok x => exact ⟨x, rfl, h⟩

/-- A loop whose body keeps a measure `len` of the state fixed and needs
`i < len` to run keeps the measure fixed and ran inside it. -/
theorem forLoop_inv {σ ε : Type} (body : Nat → σ → Except ε σ) (len : σ → Nat)
    (hb : ∀ i s s1, body i s = .ok s1 → len s1 = len s ∧ i < len s) :
    ∀ k i s s1, forLoop body i k s = .ok s1 →
      len s1 = len s ∧ (0 < k → i + k ≤ len s) := by
  intro k
  induction k with
  | zero =>
    intro i s s1 h
    simp [forLoop] at h
    subst h
    simp
  | succ k ih =>
    intro i s s1 h
    simp only [forLoop] at h
    cases hbody : body i s with
    | error e => simp [hbody] at h
    | ok s2 =>
      simp only [hbody] at h
      obtain ⟨h1, h2⟩ := hb i s s2 hbody
      obtain ⟨h3, h4⟩ := ih (i + 1) s2 s1 h
      refine ⟨by omega, fun _ => ?_⟩
      by_cases hk : 0 < k
      · have := h4 hk
        omega
      · omega

/-- A transfer that ran to its end read inside the source and wrote inside
the destination, whose slot count it keeps. -/
theorem copy_n_inv {src dst d1 : Option (List T)} {n : Nat}
    (h : copy_n src n dst = .ok d1) :
    blen d1 = blen dst ∧ (0 < n → n ≤ blen dst ∧ n ≤ blen src) := by
  unfold copy_n at h
  have h1 := forLoop_inv (fun i d => (rd src i).bind (fun x => wr d i x)) blen
    (by
      intro i s s1 hs
      obtain ⟨x, _, hx⟩ := bind_ok hs
      exact wr_blen hx) n 0 dst d1 h
  have h2 := forLoop_inv (fun i d => (rd src i).bind (fun x => wr d i x)) (fun _ => blen src)
    (by
      intro i s s1 hs
      obtain ⟨x, hx, _⟩ := bind_ok hs
      obtain ⟨b, rfl, hb⟩ := rd_ok hx
      refine ⟨rfl, ?_⟩
      by_contra hc
      rw [List.getElem?_eq_none (by simpa using hc)] at hb
      exact absurd hb (by simp)) n 0 dst d1 h
  refine ⟨h1.1, fun hn => ⟨?_, ?_⟩⟩
  · have := h1.2 hn
    omega
  · have h5 : 0 + n ≤ blen src := h2.2 hn
    omega

/-- The transfer loop started at `i`: inside both blocks it runs to its end,
and overwrites exactly positions `[i, i + k)` of the destination with the
source's. -/
theorem copy_loop (b : List T) :
    ∀ k i (d : List T), i + k ≤ b.length → i + k ≤ d.length →
      ∃ d1 : List T,
        forLoop (fun i d => (rd (some b) i).bind (fun x => wr d i x)) i k (some d)
          = .ok (some d1) ∧
        d1.length = d.length ∧
        ∀ j, d1[j]? = if i ≤ j ∧ j < i + k then b[j]? else d[j]? := by
  intro k
  induction k with
  | zero =>
    intro i d _ _
    refine ⟨d, rfl, rfl, fun j => ?_⟩
    have h0 : ¬ (i ≤ j ∧ j < i + 0) := by omega
    rw [if_neg h0]
  | succ k ih =>
    intro i d hb hd
    have hib : i < b.length := by omega
    have hid : i < d.length := by omega
    obtain ⟨d1, h1, h2, h3⟩ := ih (i + 1) (d.set i b[i]) (by omega) (by simp; omega)
    refine ⟨d1, ?_, by simpa using h2, fun j => ?_⟩
    · simp only [forLoop, rd_some hib, Except.bind, wr_some _ hid]
      exact h1
    · rw [h3 j, List.getElem?_set]
      by_cases hj : i = j
      · subst hj
        have h4 : ¬ (i + 1 ≤ i ∧ i < i + 1 + k) := by omega
        have h5 : i ≤ i ∧ i < i + (k + 1) := by omega
        simp [h4, h5, hid, List.getElem?_eq_getElem hib]
      · by_cases hr : i + 1 ≤ j ∧ j < i + 1 + k
        · have h5 : i ≤ j ∧ j < i + (k + 1) := by omega
          simp [hr, h5]
        · have h5 : ¬ (i ≤ j ∧ j < i + (k + 1)) := by omega
          simp [hr, h5, hj]

/-- Closed form of a transfer into a block that is large enough. -/
theorem copy_n_some (b d : List T) (n : Nat) (hb : n ≤ b.length) (hd : n ≤ d.length) :
    copy_n (some b) n (some d) = .ok (some (b.take n ++ d.drop n)) := by
  obtain ⟨d1, h1, h2, h3⟩ := copy_loop b n 0 d (by omega) (by omega)
  unfold copy_n
  rw [h1]
  congr 2
  apply List.ext_getElem?
  intro j
  have h4 : (List.take n b).length = n := by
    rw [List.length_take]
    omega
  rw [h3 j, List.getElem?_append, List.getElem?_take, h4]
  by_cases hj : j < n
  · have h5 : 0 ≤ j ∧ j < 0 + n := by omega
    rw [if_pos h5, if_pos hj, if_pos hj]
  · have h5 : ¬ (0 ≤ j ∧ j < 0 + n) := by omega
    rw [if_neg h5, if_neg hj, List.getElem?_drop]
    congr 1
    omega

theorem copy_n_zero (src dst : Option (List T)) : copy_n src 0 dst = .ok dst := rfl

end MemoryLemmas

namespace Vector

section ReserveLemmas

variable {T : Type}

theorem Reserve_traced_same [Element T] (v : Vector T) :
    Reserve_traced v v.capacity_ = .ok (v, .kept) := by
  simp [Reserve_traced]

theorem Reserve_traced_zero [Element T] (v : Vector T) (hc : v.capacity_ ≠ 0) :
    Reserve_traced v 0
      = .ok ({ array_ := none, size_ := 0, capacity_ := 0 }, .released) := by
  have h : ¬ (0 = v.capacity_) := fun h => hc h.symm
  simp [Reserve_traced, h]

theorem Reserve_traced_fresh [Element T] (v : Vector T) (n : Nat) (hn : n ≠ 0)
    (hc : v.capacity_ = 0) :
    Reserve_traced v n
      = .ok ({ array_ := new_array n, size_ := v.size_, capacity_ := n }, .replaced) := by
  have h : ¬ (n = v.capacity_) := by omega
  simp [Reserve_traced, h, hn, hc]

theorem Reserve_traced_empty [Element T] (v : Vector T) (n : Nat) (hn : n ≠ 0)
    (hne : n ≠ v.capacity_) (hc : v.capacity_ ≠ 0) (hs : v.size_ = 0) :
    Reserve_traced v n
      = .ok ({ array_ := new_array n, size_ := 0, capacity_ := n }, .released) := by
  simp [Reserve_traced, hne, hn, hc, hs, copy_n_zero, Except.bind]

theorem Reserve_traced_small [Element T] (v : Vector T) (n : Nat) (hn : n ≠ 0)
    (hs : v.size_ ≠ 0) (hlt : n < v.capacity_) : Reserve_traced v n = .ok (v, .kept) := by
  have h : ¬ (n = v.capacity_) := by omega
  have hc : v.capacity_ ≠ 0 := by omega
  simp [Reserve_traced, h, hn, hc, hs, hlt]

theorem Reserve_traced_grow [Element T] (v : Vector T) (n : Nat) (b : List T) (hs : v.size_ ≠ 0)
    (hc : v.capacity_ ≠ 0) (hlt : v.capacity_ < n) (hb : v.array_ = some b)
    (h1 : v.size_ ≤ b.length) (h2 : v.size_ ≤ n) :
    Reserve_traced v n
      = .ok ({ array_ := some (b.take v.size_ ++ List.replicate (n - v.size_) Element.dflt),
               size_ := v.size_, capacity_ := n }, .released) := by
  have h : ¬ (n = v.capacity_) := by omega
  have hn : n ≠ 0 := by omega
  have h3 : ¬ (n < v.capacity_) := by omega
  have h4 := copy_n_some b (List.replicate n (Element.dflt : T)) v.size_ h1 (by simpa using h2)
  simp [Reserve_traced, h, hn, hc, hs, h3, hb, new_array, h4, Except.bind]

/-- `Reserve` keeps the live range inside the block and the block inside
`capacity_`. -/
theorem Reserve_traced_Inv [Element T] {v : Vector T} {n : Nat} {r : Vector T × BlockFate}
    (hv : Inv v)
    (h : Reserve_traced v n = .ok r) : Inv r.1 := by
  obtain ⟨hv1, hv2⟩ := hv
  by_cases hsame : n = v.capacity_
  · subst hsame
    rw [Reserve_traced_same] at h
    cases h
    exact ⟨hv1, hv2⟩
  by_cases hn : n = 0
  · subst hn
    rw [Reserve_traced_zero v (fun h0 => hsame h0.symm)] at h
    cases h
    simp [Inv, slots]
  by_cases hc : v.capacity_ = 0
  · rw [Reserve_traced_fresh v n hn hc] at h
    cases h
    simp [Inv, slots]
    omega
  by_cases hs : v.size_ = 0
  · rw [Reserve_traced_empty v n hn hsame hc hs] at h
    cases h
    simp [Inv, slots]
  by_cases hlt : n < v.capacity_
  · rw [Reserve_traced_small v n hn hs hlt] at h
    cases h
    exact ⟨hv1, hv2⟩
  · cases hb : v.array_ with
    | none =>
      simp [slots, hb] at hv1
      exact absurd hv1 hs
    | some b =>
      simp [slots, hb] at hv1 hv2
      rw [Reserve_traced_grow v n b hs hc (by omega) hb hv1 (by omega)] at h
      cases h
      simp [Inv, slots]
      omega

theorem Reserve_Inv [Element T] {v v1 : Vector T} {n : Nat} (hv : Inv v)
    (h : Reserve v n = .ok v1) :
    Inv v1 := by
  unfold Reserve at h
  cases hr : Reserve_traced v n with
  | error e => simp [hr, Except.map] at h
  | ok r =>
    simp [hr, Except.map] at h
    subst h
    exact Reserve_traced_Inv hv hr

end ReserveLemmas

end Vector

section Outcomes

variable {T : Type}

theorem onlyUB_ok {α : Type} (x : α) : OnlyUB (.ok x : Res T α) := by
  intro e h
  cases h

theorem onlyUB_rd (a : Option (List T)) (i : Nat) : OnlyUB (rd a i) := by
  intro e h
  cases a with
  | none =>
    simp [rd] at h
    exact h.symm
  | some b =>
    cases hb : b[i]? with
    | none =>
      simp [rd, hb] at h
      exact h.symm
    | some y => simp [rd, hb] at h

theorem onlyUB_wr (a : Option (List T)) (i : Nat) (x : T) : OnlyUB (wr a i x) := by
  intro e h
  cases a with
  | none =>
    simp [wr] at h
    exact h.symm
  | some b =>
    by_cases hi : i < b.length
    · simp [wr, hi] at h
    · simp [wr, hi] at h
      exact h.symm

theorem onlyUB_bind {α β : Type} {m : Res T α} {f : α → Res T β} (hm : OnlyUB m)
    (hf : ∀ x, OnlyUB (f x)) : OnlyUB (m.bind f) := by
  intro e h
  cases m with
  | error e1 =>
    simp [Except.bind] at h
    subst h
    exact hm _ rfl
  | ok x => exact hf x e h

theorem onlyUB_forLoop {σ : Type} (body : Nat → σ → Res T σ)
    (hb : ∀ i s, OnlyUB (body i s)) :
    ∀ k i s, OnlyUB (forLoop body i k s) := by
  intro k
  induction k with
  | zero =>
    intro i s e h
    simp [forLoop] at h
  | succ k ih =>
    intro i s e h
    simp only [forLoop] at h
    cases hbody : body i s with
    | error e1 =>
      simp [hbody] at h
      subst h
      exact hb i s _ hbody
    | ok s1 =>
      simp only [hbody] at h
      exact ih (i + 1) s1 e h

theorem onlyUB_copy_n (src dst : Option (List T)) (n : Nat) : OnlyUB (copy_n src n dst) :=
  onlyUB_forLoop _ (fun i _ => onlyUB_bind (onlyUB_rd src i) (fun x => onlyUB_wr _ i x)) n 0 dst

theorem post_bind {α : Type} {P : Vector T → Prop} {m : Res T α} {f : α → Res T (Vector T)}
    (hm : OnlyUB m) (hf : ∀ x, m = .ok x → Post P (f x)) : Post P (m.bind f) := by
  cases m with
  | error e =>
    have := hm e rfl
    subst this
    simp [Except.bind, Post]
  | ok x => exact hf x rfl

/-- A run of stores `a[i] = x_i` over `[lo, lo + cnt)` that ran to its end
stayed inside the block. -/
theorem store_loop_inv {σ : Type} (body : Nat → σ → Res T σ) (arr : σ → Option (List T))
    (hb : ∀ i s s1, body i s = .ok s1 → ∃ x, wr (arr s) i x = .ok (arr s1))
    {lo cnt : Nat} {s s1 : σ} (h : forLoop body lo cnt s = .ok s1) :
    blen (arr s1) = blen (arr s) ∧ (0 < cnt → lo + cnt ≤ blen (arr s)) :=
  forLoop_inv body (fun s => blen (arr s))
    (by
      intro i s s1 hs
      obtain ⟨x, hx⟩ := hb i s s1 hs
      exact wr_blen hx) cnt lo s s1 h

end Outcomes

namespace Vector

section InvLemmas

variable {T : Type}

theorem onlyUB_Reserve_traced [Element T] (v : Vector T) (n : Nat) :
    OnlyUB (Reserve_traced v n) := by
  unfold Reserve_traced
  repeat' split
  all_goals
    first
    | exact onlyUB_ok _
    | (dsimp only
       split
       · exact onlyUB_ok _
       · exact onlyUB_bind (onlyUB_copy_n _ _ _) (fun _ => onlyUB_ok _))

theorem Inv_ctor : Inv (ctor : Vector T) := by
  simp [Inv, ctor, slots]

theorem ctor_num_Inv [Element T] {num : Nat} {v : Vector T} (h : ctor_num num = .ok v) : Inv v := by
  unfold ctor_num at h
  by_cases hn : num > 0
  · rw [if_pos hn] at h
    obtain ⟨a, ha, h1⟩ := bind_ok h
    cases h1
    have h2 := store_loop_inv (fun i a => wr a i (Element.dflt : T)) id
      (fun i s s1 hs => ⟨_, hs⟩) ha
    simp [Inv, slots] at h2 ⊢
    omega
  · simp only [hn, if_false] at h
    cases h
    simp [Inv, slots]

theorem ctor_fill_Inv (num : Nat) (value : T) : Inv (ctor_fill num value) := by
  unfold ctor_fill
  split <;> simp [Inv, slots]

theorem ctor_range_Inv (l : List T) : Inv (ctor_range l) := by
  unfold ctor_range
  split <;> simp [Inv, slots]

theorem ctor_list_Inv (l : List T) : Inv (ctor_list l) := by
  unfold ctor_list
  split <;> simp [Inv, slots]

theorem ctor_copy_Inv [Element T] {o v : Vector T} (ho : Inv o) (h : ctor_copy o = .ok v) :
    Inv v := by
  unfold ctor_copy at h
  obtain ⟨ho1, ho2⟩ := ho
  by_cases hs : o.size_ ≠ 0
  · rw [if_pos hs] at h
    obtain ⟨a, ha, h1⟩ := bind_ok h
    cases h1
    have h2 := (copy_n_inv ha).1
    simp [Inv, slots] at h2 ⊢
    omega
  · rw [if_neg hs] at h
    cases h
    simp [Inv, slots]
    omega

theorem assign_copy_Inv [Element T] {a o v : Vector T} {same : Bool} (ha : Inv a) (ho : Inv o)
    (h : assign_copy a o same = .ok v) : Inv v := by
  unfold assign_copy at h
  obtain ⟨ho1, ho2⟩ := ho
  cases same with
  | true =>
    simp at h
    subst h
    exact ha
  | false =>
    simp only [Bool.false_eq_true, if_false] at h
    obtain ⟨d, hd, h1⟩ := bind_ok h
    cases h1
    have h2 := (copy_n_inv hd).1
    by_cases hs : o.size_ ≠ 0
    · simp [hs, Inv, slots] at h2 ⊢
      omega
    · simp [hs, Inv, slots] at h2 ⊢
      omega

theorem Resize_Inv [Element T] {v v1 : Vector T} {n : Nat} (hv : Inv v) (h : Resize v n = .ok v1) :
    Inv v1 := by
  unfold Resize at h
  by_cases h0 : n ≤ 0
  · rw [if_pos h0] at h
    cases h
    simp [Inv, slots]
  rw [if_neg h0] at h
  by_cases h1 : n ≤ v.size_
  · rw [if_pos h1] at h
    cases h
    obtain ⟨hv1, hv2⟩ := hv
    exact ⟨by simp only [slots] at hv1 ⊢; omega, hv2⟩
  rw [if_neg h1] at h
  obtain ⟨w, hw, h2⟩ := bind_ok h
  obtain ⟨a, ha, h3⟩ := bind_ok h2
  cases h3
  have hwI : Inv w := by
    by_cases hc : n > v.capacity_
    · rw [if_pos hc] at hw
      exact Reserve_Inv hv hw
    · rw [if_neg hc] at hw
      cases hw
      exact hv
  have hsz : n > w.size_ → n ≤ w.slots := by
    intro hgt
    have h4 := store_loop_inv (fun i a => wr a i (Element.dflt : T)) id
      (fun i s s1 hs => ⟨_, hs⟩) ha
    have := h4.2 (by omega)
    simp only [id, slots] at this ⊢
    omega
  have h5 := (store_loop_inv (fun i a => wr a i (Element.dflt : T)) id
      (fun i s s1 hs => ⟨_, hs⟩) ha).1
  obtain ⟨hw1, hw2⟩ := hwI
  simp only [Inv, slots, id] at h5 hsz hw1 hw2 ⊢
  constructor
  · by_cases hgt : n > w.size_
    · have := hsz hgt
      omega
    · omega
  · omega

end InvLemmas

section InvLemmas2

variable {T : Type}

theorem Resize_value_Inv [Element T] {v v1 : Vector T} {n : Nat} {value : T} (hv : Inv v)
    (h : Resize_value v n value = .ok v1) : Inv v1 := by
  unfold Resize_value at h
  by_cases h0 : n ≤ 0
  · rw [if_pos h0] at h
    cases h
    simp [Inv, slots]
  rw [if_neg h0] at h
  by_cases h1 : n ≤ v.size_
  · rw [if_pos h1] at h
    cases h
    obtain ⟨hv1, hv2⟩ := hv
    exact ⟨by simp only [slots] at hv1 ⊢; omega, hv2⟩
  rw [if_neg h1] at h
  obtain ⟨w, hw, h2⟩ := bind_ok h
  obtain ⟨s, hs, h3⟩ := bind_ok h2
  cases h3
  have hwI : Inv w := by
    by_cases hc : n > v.capacity_
    · rw [if_pos hc] at hw
      exact Reserve_Inv hv hw
    · rw [if_neg hc] at hw
      cases hw
      exact hv
  have h4 := store_loop_inv
    (fun i (s : Option (List T) × T) => (wr s.1 i s.2).bind fun a => .ok (a, Element.moved s.2))
    Prod.fst
    (by
      intro i s s1 hs
      obtain ⟨a, ha, h5⟩ := bind_ok hs
      cases h5
      exact ⟨_, ha⟩) hs
  obtain ⟨hw1, hw2⟩ := hwI
  obtain ⟨h5, h6⟩ := h4
  simp only [Inv, slots] at h5 h6 hw1 hw2 ⊢
  constructor
  · by_cases hgt : n > w.size_
    · have := h6 (by omega)
      omega
    · omega
  · omega

theorem ShrinkToFit_Inv [Element T] {v v1 : Vector T} (hv : Inv v) (h : ShrinkToFit v = .ok v1) :
    Inv v1 := by
  obtain ⟨hv1, hv2⟩ := hv
  unfold ShrinkToFit at h
  dsimp only at h
  by_cases hs : v.size_ = 0
  · simp only [hs, if_true] at h
    cases h
    simp [Inv, slots, hs]
  · rw [if_neg hs] at h
    by_cases he : v.size_ = v.capacity_
    · rw [if_pos he] at h
      cases h
      exact ⟨hv1, hv2⟩
    · rw [if_neg he] at h
      obtain ⟨tmp, ht, h1⟩ := bind_ok h
      cases h1
      have h2 := (copy_n_inv ht).1
      simp [Inv, slots] at h2 ⊢
      omega

theorem wrap_le (n : Nat) : wrap n ≤ n := Nat.mod_le _ _

/-- The common tail of both `PushBack` forms: growth, then the store into
slot `size_`. -/
theorem push_tail_Inv {w : Vector T} {a : Option (List T)} {x : T} (hw : Inv w)
    (ha : wr w.array_ w.size_ x = .ok a) :
    Inv { array_ := a, size_ := wrap (w.size_ + 1), capacity_ := w.capacity_ } := by
  obtain ⟨hw1, hw2⟩ := hw
  obtain ⟨h1, h2⟩ := wr_blen ha
  have := wrap_le (w.size_ + 1)
  simp only [Inv, slots] at hw1 hw2 ⊢
  omega

theorem PushBack_move_Inv [Element T] {v v1 : Vector T} {el2 : T} (hv : Inv v)
    (h : PushBack_move v el2 = .ok v1) : Inv v1 := by
  unfold PushBack_move at h
  obtain ⟨w1, hw1, h1⟩ := bind_ok h
  obtain ⟨w2, hw2, h2⟩ := bind_ok h1
  obtain ⟨a, ha, h3⟩ := bind_ok h2
  cases h3
  have hI1 : Inv w1 := by
    by_cases hc : v.capacity_ = 0
    · rw [if_pos hc] at hw1
      exact Reserve_Inv hv hw1
    · rw [if_neg hc] at hw1
      cases hw1
      exact hv
  have hI2 : Inv w2 := by
    by_cases hc : w1.size_ = w1.capacity_
    · rw [if_pos hc] at hw2
      exact Reserve_Inv hI1 hw2
    · rw [if_neg hc] at hw2
      cases hw2
      exact hI1
  exact push_tail_Inv hI2 ha

theorem onlyUB_deref (fate : BlockFate) (a : Option (List T)) (el1 : Ref T) :
    OnlyUB (deref fate a el1) := by
  unfold deref
  cases el1 with
  | ext x => exact onlyUB_ok _
  | own i =>
    by_cases hfate : fate = BlockFate.released
    · intro e h
      simp [hfate] at h
      exact h.symm
    · simpa [hfate] using onlyUB_rd a i

/-- Whether it returns or throws, `PushBack(const T&)` leaves the live range
inside the block and the block inside `capacity_`. -/
theorem PushBack_copy_Inv [Element T] {v : Vector T} (hv : Inv v) (fault : Option CopySite)
    (el1 : Ref T) : Post Inv (PushBack_copy fault v el1) := by
  unfold PushBack_copy
  dsimp only
  refine post_bind (onlyUB_rd _ _) (fun tmp_old _ => ?_)
  refine post_bind (onlyUB_deref _ _ _) (fun x _ => ?_)
  by_cases hf : fault = some CopySite.probe
  · rw [if_pos hf]
    exact hv
  rw [if_neg hf]
  refine post_bind (onlyUB_wr _ _ _) (fun a1 ha1 => ?_)
  refine post_bind (onlyUB_wr _ _ _) (fun a2 ha2 => ?_)
  have hI0 : Inv { array_ := a2, size_ := v.size_, capacity_ := v.capacity_ } := by
    have h1 := (wr_blen ha1).1
    have h2 := (wr_blen ha2).1
    obtain ⟨hv1, hv2⟩ := hv
    simp only [Inv, slots] at hv1 hv2 ⊢
    omega
  refine post_bind ?_ (fun r1 hr1 => ?_)
  · split
    · exact onlyUB_Reserve_traced _ _
    · exact onlyUB_ok _
  have hI1 : Inv r1.1 := by
    by_cases hc : v.capacity_ = 0
    · rw [if_pos hc] at hr1
      exact Reserve_traced_Inv hI0 hr1
    · rw [if_neg hc] at hr1
      cases hr1
      exact hI0
  refine post_bind ?_ (fun r2 hr2 => ?_)
  · split
    · exact onlyUB_Reserve_traced _ _
    · exact onlyUB_ok _
  have hI2 : Inv r2.1 := by
    by_cases hc : r1.1.size_ = r1.1.capacity_
    · rw [if_pos hc] at hr2
      exact Reserve_traced_Inv hI1 hr2
    · rw [if_neg hc] at hr2
      cases hr2
      exact hI1
  refine post_bind (onlyUB_deref _ _ _) (fun y _ => ?_)
  by_cases hf2 : fault = some CopySite.store
  · rw [if_pos hf2]
    exact hI2
  rw [if_neg hf2]
  refine post_bind (onlyUB_wr _ _ _) (fun a3 ha3 => ?_)
  exact push_tail_Inv hI2 ha3

/-- Every reachable state keeps the live range inside the block and the block
inside `capacity_`. -/
theorem Reach_Inv [Element T] {v : Vector T} (h : Reach v) : Inv v := by
  induction h with
  | by_ctor => exact Inv_ctor
  | by_ctor_num num h => exact ctor_num_Inv h
  | by_ctor_fill num value => exact ctor_fill_Inv num value
  | by_ctor_range l => exact ctor_range_Inv l
  | by_ctor_list l => exact ctor_list_Inv l
  | by_ctor_copy _ h ih => exact ctor_copy_Inv ih h
  | by_ctor_move_new _ ih => exact ih
  | by_ctor_move_src _ _ => exact Inv_ctor
  | by_assign_copy same _ _ h iha iho => exact assign_copy_Inv iha iho h
  | by_assign_move_this same _ _ iha iho =>
    cases same with
    | true => exact iha
    | false => exact iho
  | by_assign_move_other same _ _ iha iho =>
    cases same with
    | true => exact iha
    | false => exact Inv_ctor
  | by_swap_this _ _ _ iho => exact iho
  | by_swap_other _ _ iha _ => exact iha
  | by_resize n _ h ih => exact Resize_Inv ih h
  | by_resize_value n value _ h ih => exact Resize_value_Inv ih h
  | by_reserve n _ h ih => exact Reserve_Inv ih h
  | by_shrink _ h ih => exact ShrinkToFit_Inv ih h
  | by_clear _ ih =>
    obtain ⟨_, h2⟩ := ih
    exact ⟨Nat.zero_le _, h2⟩
  | by_push_copy fault el1 _ h ih =>
    have := PushBack_copy_Inv ih fault el1
    rw [h] at this
    exact this
  | by_push_copy_thrown fault el1 _ h ih =>
    have := PushBack_copy_Inv ih fault el1
    rw [h] at this
    exact this
  | by_push_move el2 _ h ih => exact PushBack_move_Inv ih h
  | by_pop _ ih =>
    obtain ⟨h1, h2⟩ := ih
    unfold PopBack
    split
    · exact ⟨h1, h2⟩
    · exact ⟨by simp only [slots] at h1 ⊢; omega, h2⟩
  | by_store i x _ h ih =>
    obtain ⟨h1, h2⟩ := ih
    obtain ⟨a1, ha1, h3⟩ := bind_ok h
    cases h3
    have h4 := (wr_blen ha1).1
    simp only [Inv, slots] at h1 h2 ⊢
    omega

end InvLemmas2

/-- C1. In every reachable state (any constructor followed by any finite
sequence of public operations, whether they return or throw), the stored
size never exceeds the stored capacity: `size_ ≤ capacity_`. -/
theorem C1_size_le_capacity {T : Type} [Element T] (v : Vector T) (h : Reach v) :
    v.Size ≤ v.Capacity := by
  obtain ⟨h1, h2⟩ := Reach_Inv h
  exact Nat.le_trans h1 h2

/-- Witness for C1: the state of `Vector<int>{7}` is reachable and has
`size_ ≤ capacity_`. -/
theorem C1_size_le_capacity_witness :
    Reach sample_one ∧ sample_one.Size ≤ sample_one.Capacity :=
  ⟨Reach.by_ctor_list [7], C1_size_le_capacity sample_one (Reach.by_ctor_list [7])⟩

section PushLemmas

variable {T : Type}

theorem take_succ_set : ∀ (l : List T) (n : Nat) (x : T), n < l.length →
    (l.set n x).take (n + 1) = l.take n ++ [x]
  | [], _, _, h => absurd h (by simp)
  | _ :: _, 0, _, _ => by simp
  | a :: l, n + 1, x, h => by
    have h1 : n < l.length := by simpa using h
    simp [take_succ_set l n x h1]

theorem wrap_of_lt {n : Nat} (h : n < 2 ^ 64) : wrap n = n := Nat.mod_eq_of_lt h

theorem Reserve_of_traced [Element T] {v : Vector T} {n : Nat} {r : Vector T × BlockFate}
    (h : Reserve_traced v n = .ok r) : Reserve v n = .ok r.1 := by
  simp [Reserve, h, Except.map]

/-- The store `array_[size_] = x; size_++` into a block with a free slot. -/
theorem live_store (l : List T) (s c : Nat) (x : T) (h : s < l.length) (hs : s + 1 < 2 ^ 64) :
    live ({ array_ := some (l.set s x), size_ := wrap (s + 1), capacity_ := c } : Vector T)
      = l.take s ++ [x] := by
  simp [live, wrap_of_lt hs, take_succ_set l s x h]

end PushLemmas

/-- C2 (the code breaks the claim). Copying a cleared container: the copy of
`Vector<int>{1,2,3,4}` after `Clear()`, by construction or by assignment, is a
reachable state whose block is absent although its capacity is 4, so "block
absent iff capacity == 0" fails there. -/
theorem C2_copy_of_cleared_has_no_block :
    ctor_copy sample_cleared = .ok copy_of_cleared ∧ Reach copy_of_cleared ∧
      assign_copy ctor sample_cleared false = .ok copy_of_cleared ∧
      copy_of_cleared.array_ = none ∧ copy_of_cleared.Capacity = 4 ∧
      ¬ (copy_of_cleared.array_ = none ↔ copy_of_cleared.Capacity = 0) := by
  have h : ctor_copy sample_cleared = .ok copy_of_cleared := by decide
  exact ⟨h, Reach.by_ctor_copy (Reach.by_clear (Reach.by_ctor_list [1, 2, 3, 4])) h,
    by decide, rfl, rfl, by decide⟩

/-- C3 (the code breaks the claim). Copying a container with unused capacity:
the copy of `Vector<int>{1,2,3,4}` after two `PopBack()` is a reachable state
that owns a block of 2 slots and reports capacity 4; copy assignment gives the
same members, and the next `PushBack` on the copy stores outside its block. -/
theorem C3_copy_reports_source_capacity :
    ctor_copy sample_popped = .ok copy_of_popped ∧ Reach copy_of_popped ∧
      assign_copy ctor sample_popped false = .ok copy_of_popped ∧
      copy_of_popped.slots = 2 ∧ copy_of_popped.Capacity = 4 ∧
      PushBack_move copy_of_popped 9 = .error .ub := by
  have h : ctor_copy sample_popped = .ok copy_of_popped := by decide
  exact ⟨h,
    Reach.by_ctor_copy (Reach.by_pop (Reach.by_pop (Reach.by_ctor_list [1, 2, 3, 4]))) h,
    by decide, rfl, rfl, by decide⟩

/-- What move-form `PushBack` does to a container whose block has exactly
`capacity_` slots: the shared core of the statements about appending. -/
theorem PushBack_move_spec {T : Type} [Element T] (v : Vector T) (x : T)
    (hslots : v.slots = v.capacity_) (hsz : v.size_ ≤ v.capacity_)
    (hcap : v.capacity_ < 2 ^ 64) (hdbl : v.size_ = v.capacity_ → v.capacity_ < 2 ^ 63) :
    ∃ v1, PushBack_move v x = .ok v1 ∧ v1.live = v.live ++ [x] ∧ v1.Size = v.Size + 1 ∧
      v1.Capacity = (if v.Capacity = 0 then 1
        else if v.Size = v.Capacity then 2 * v.Capacity else v.Capacity) ∧
      v1.slots = v1.Capacity ∧ v1.array_ ≠ none := by
  unfold PushBack_move
  by_cases hc : v.capacity_ = 0
  · -- empty block: `Reserve(1)`, then the store into slot 0
    have hs0 : v.size_ = 0 := by omega
    have hlive : v.live = [] := by
      unfold live
      cases v.array_ <;> simp [hs0]
    rw [if_pos hc, Reserve_of_traced (Reserve_traced_fresh v 1 (by omega) hc)]
    refine ⟨{ array_ := some [x], size_ := 1, capacity_ := 1 }, ?_, ?_, ?_, ?_, ?_, by simp⟩
    · simp [Except.bind, hs0, new_array, wr, wrap]
    · rw [hlive]
      simp [live]
    · simp [Size, hs0]
    · simp [Capacity, hc]
    · simp [slots, Capacity]
  · cases hb : v.array_ with
    | none =>
      simp [slots, hb] at hslots
      exact absurd hslots.symm hc
    | some b =>
      have hlen : b.length = v.capacity_ := by simpa [slots, hb] using hslots
      have hlive : v.live = b.take v.size_ := by simp [live, hb]
      rw [if_neg hc]
      simp only [Except.bind]
      by_cases hfull : v.size_ = v.capacity_
      · -- full block: `Reserve(capacity_ * 2)`, then the store
        have hmax : v.capacity_ < 2 ^ 63 := hdbl hfull
        have hw : wrap (v.capacity_ * 2) = v.capacity_ * 2 := wrap_of_lt (by omega)
        have hs : v.size_ ≠ 0 := by omega
        rw [if_pos hfull, hw,
          Reserve_of_traced (Reserve_traced_grow v (v.capacity_ * 2) b hs hc (by omega) hb
            (by omega) (by omega))]
        simp only []
        have hl : v.size_ <
            (b.take v.size_ ++
              List.replicate (v.capacity_ * 2 - v.size_) (Element.dflt : T)).length := by
          simp
          omega
        rw [wr_some x hl]
        refine ⟨_, rfl, ?_, ?_, ?_, ?_, by simp⟩
        · rw [live_store _ _ _ _ hl (by omega), hlive]
          congr 1
          rw [List.take_append_of_le_length (by simp; omega)]
          simp
        · simp [Size, wrap_of_lt (show v.size_ + 1 < 2 ^ 64 by omega)]
        · simp [Capacity, Size, hc, hfull]
          omega
        · simp [slots, Capacity]
          omega
      · -- a free slot: the store alone
        have hl : v.size_ < b.length := by omega
        rw [if_neg hfull]
        simp only [hb]
        rw [wr_some x hl]
        refine ⟨_, rfl, ?_, ?_, ?_, ?_, by simp⟩
        · rw [live_store _ _ _ _ hl (by omega), hlive]
        · simp [Size, wrap_of_lt (show v.size_ + 1 < 2 ^ 64 by omega)]
        · simp [Capacity, Size, hc, hfull]
        · simp [slots, Capacity, hlen]

/-- C4. For every container whose block has exactly `capacity_` slots (at most
`PTRDIFF_MAX`, as every array object) and with `size_ ≤ capacity_`, and every
value `x`, move-form `PushBack(x)` returns without any out-of-range access;
afterwards the live elements are the old ones followed by `x`, the size is one
larger, and the capacity is 1 if it was 0, twice the old one if the block was
full and non-empty, and the old one otherwise; the block again has exactly
`capacity_` slots. -/
theorem C4_PushBack_move {T : Type} [Element T] (v : Vector T) (x : T)
    (hslots : v.slots = v.capacity_) (hsz : v.size_ ≤ v.capacity_)
    (hfit : v.capacity_ ≤ PTRDIFF_MAX) :
    ∃ v1, PushBack_move v x = .ok v1 ∧ v1.live = v.live ++ [x] ∧ v1.Size = v.Size + 1 ∧
      v1.Capacity = (if v.Capacity = 0 then 1
        else if v.Size = v.Capacity then 2 * v.Capacity else v.Capacity) ∧
      v1.slots = v1.Capacity := by
  have hmax : v.capacity_ < 2 ^ 63 := by
    have : PTRDIFF_MAX = 2 ^ 63 - 1 := rfl
    omega
  obtain ⟨v1, h1, h2, h3, h4, h5, _⟩ :=
    PushBack_move_spec v x hslots hsz (by omega) (fun _ => hmax)
  exact ⟨v1, h1, h2, h3, h4, h5⟩

/-- Witness for C4: pushing 9 onto the full one-slot container `{7}`. -/
theorem C4_PushBack_move_witness :
    sample_one.slots = sample_one.capacity_ ∧ sample_one.size_ ≤ sample_one.capacity_ ∧
      sample_one.capacity_ ≤ PTRDIFF_MAX ∧
      ∃ v1, PushBack_move sample_one 9 = .ok v1 ∧ v1.live = sample_one.live ++ [9] ∧
        v1.Size = sample_one.Size + 1 ∧
        v1.Capacity = (if sample_one.Capacity = 0 then 1
          else if sample_one.Size = sample_one.Capacity then 2 * sample_one.Capacity
          else sample_one.Capacity) ∧
        v1.slots = v1.Capacity :=
  ⟨by decide, by decide, by decide,
    C4_PushBack_move sample_one 9 (by decide) (by decide) (by decide)⟩

/-- C5 (the code breaks the claim). On the default-constructed empty container
copy-form `PushBack(x)` starts with `array_[size_ - 1]`, an access through the
null pointer at index `SIZE_MAX`: the run is undefined for every element type
and every `x`, where the move form on the same container succeeds. -/
theorem C5_PushBack_copy_on_empty {T : Type} [Element T] (x : T) :
    PushBack_copy none (ctor : Vector T) (Ref.ext x) = .error .ub ∧
      PushBack_move (ctor : Vector T) x
        = .ok { array_ := some [x], size_ := 1, capacity_ := 1 } := by
  constructor
  · simp [PushBack_copy, ctor, rd, Except.bind]
  · simp [PushBack_move, ctor, Reserve, Reserve_traced, Except.map, Except.bind, new_array, wr,
      wrap]

section ValidLemmas

variable {T : Type}

/-- The two shapes of a container that satisfies the data-model invariants. -/
theorem Valid.shape {v : Vector T} (hv : Valid v) :
    (v.array_ = none ∧ v.capacity_ = 0 ∧ v.size_ = 0) ∨
      ∃ b, v.array_ = some b ∧ b.length = v.capacity_ ∧ 0 < v.capacity_ ∧
        v.size_ ≤ b.length := by
  obtain ⟨h1, h2, h3⟩ := hv
  cases hb : v.array_ with
  | none =>
    have hc : v.capacity_ = 0 := h2.mp hb
    exact Or.inl ⟨rfl, hc, by omega⟩
  | some b =>
    have hlen : b.length = v.capacity_ := by simpa [slots, hb] using h3
    have hc : v.capacity_ ≠ 0 := fun h0 => by
      have := h2.mpr h0
      rw [hb] at this
      cases this
    exact Or.inr ⟨b, rfl, hlen, by omega, by omega⟩

/-- What `Reserve(new_cap)` does to a valid container when `new_cap ≥ 1`. -/
theorem Reserve_valid [Element T] (v : Vector T) (n : Nat) (hv : Valid v) (hn : 1 ≤ n) :
    ∃ v1, Reserve v n = .ok v1 ∧ v1.size_ = v.size_ ∧ v1.live = v.live ∧
      v1.capacity_ = (if v.size_ = 0 ∨ v.capacity_ < n then n else v.capacity_) ∧
      (n = v.capacity_ → v1 = v) ∧ Valid v1 := by
  by_cases hsame : n = v.capacity_
  · subst hsame
    refine ⟨v, Reserve_of_traced (Reserve_traced_same v), rfl, rfl, ?_, fun _ => rfl, hv⟩
    by_cases hs : v.size_ = 0 <;> simp [hs]
  rcases hv.shape with ⟨hb, hc, hs⟩ | ⟨b, hb, hlen, hc, hs⟩
  · refine ⟨_, Reserve_of_traced (Reserve_traced_fresh v n (by omega) hc), rfl, ?_, ?_,
      fun h => absurd h hsame, ?_⟩
    · simp [live, hb, hs, new_array]
    · simp [hs]
    · exact ⟨by simp [hs], by simp [new_array]; omega, by simp [slots]⟩
  · by_cases hs0 : v.size_ = 0
    · refine ⟨_, Reserve_of_traced (Reserve_traced_empty v n (by omega) hsame (by omega) hs0),
        hs0.symm, ?_, ?_, fun h => absurd h hsame, ?_⟩
      · simp [live, hb, hs0, new_array]
      · simp [hs0]
      · exact ⟨by simp, by simp [new_array]; omega, by simp [slots]⟩
    · by_cases hlt : n < v.capacity_
      · refine ⟨v, Reserve_of_traced (Reserve_traced_small v n (by omega) hs0 hlt), rfl, rfl,
          ?_, fun _ => rfl, hv⟩
        have h1 : ¬ (v.size_ = 0 ∨ v.capacity_ < n) := by omega
        rw [if_neg h1]
      · refine ⟨_, Reserve_of_traced (Reserve_traced_grow v n b hs0 (by omega) (by omega) hb hs
            (by omega)), rfl, ?_, ?_, fun h => absurd h hsame, ?_⟩
        · simp only [live, hb]
          rw [List.take_append_of_le_length (by simp; omega)]
          simp
        · have h1 : v.size_ = 0 ∨ v.capacity_ < n := Or.inr (by omega)
          rw [if_pos h1]
        · refine ⟨by simp only []; omega, by simp; omega, ?_⟩
          simp [slots]
          omega

end ValidLemmas

/-- C9 as stated fails: the cleared container `{1,2,3,4}` (size 0, capacity 4)
is valid, and `Reserve(2)` leaves it with capacity 2, not `max 4 2`. -/
theorem C9_Reserve_shrinks_empty :
    ¬ ∀ (v : Vector Nat) (new_cap : Nat), Valid v → 1 ≤ new_cap →
        ∀ v1, Reserve v new_cap = .ok v1 → v1.Capacity = max v.Capacity new_cap := by
  intro h
  have h1 := h sample_cleared 2 ⟨by decide, by decide, by decide⟩ (by decide)
    { array_ := some [0, 0], size_ := 0, capacity_ := 2 } (by decide)
  revert h1
  decide

/-- C9 (amended). For every valid container and every `new_cap ≥ 1`,
`Reserve(new_cap)` returns, and the capacity afterwards is `new_cap` when the
container is empty (`size == 0`) or `new_cap` exceeds the old capacity, and
the old capacity otherwise; hence for a non-empty container it is
`max(old capacity, new_cap)` and never decreases, and the call changes
nothing when `new_cap` equals the old capacity. -/
theorem C9_Reserve_capacity {T : Type} [Element T] (v : Vector T) (new_cap : Nat)
    (hv : Valid v) (hn : 1 ≤ new_cap) :
    ∃ v1, Reserve v new_cap = .ok v1 ∧
      v1.Capacity = (if v.Size = 0 ∨ v.Capacity < new_cap then new_cap else v.Capacity) ∧
      (0 < v.Size → v1.Capacity = max v.Capacity new_cap) ∧
      (new_cap = v.Capacity → v1 = v) := by
  obtain ⟨v1, h1, _, _, h4, h5, _⟩ := Reserve_valid v new_cap hv hn
  refine ⟨v1, h1, h4, fun hpos => ?_, h5⟩
  simp only [Capacity, Size] at hpos ⊢
  rw [h4]
  by_cases hlt : v.capacity_ < new_cap
  · rw [if_pos (Or.inr hlt)]
    omega
  · have h6 : ¬ (v.size_ = 0 ∨ v.capacity_ < new_cap) := by omega
    rw [if_neg h6]
    omega

/-- Witness for C9 (amended): `Reserve(2)` on the cleared container. -/
theorem C9_Reserve_capacity_witness :
    Valid sample_cleared ∧ 1 ≤ 2 ∧
      ∃ v1, Reserve sample_cleared 2 = .ok v1 ∧
        v1.Capacity = (if sample_cleared.Size = 0 ∨ sample_cleared.Capacity < 2 then 2
          else sample_cleared.Capacity) ∧
        (0 < sample_cleared.Size → v1.Capacity = max sample_cleared.Capacity 2) ∧
        (2 = sample_cleared.Capacity → v1 = sample_cleared) :=
  ⟨⟨by decide, by decide, by decide⟩, by decide,
    C9_Reserve_capacity sample_cleared 2 ⟨by decide, by decide, by decide⟩ (by decide)⟩

/-- C10. For every container with `capacity > 0`, `Reserve(0)` returns and
leaves the empty state: size 0, capacity 0, no block. -/
theorem C10_Reserve_zero {T : Type} [Element T] (v : Vector T) (hc : 0 < v.Capacity) :
    ∃ v1, Reserve v 0 = .ok v1 ∧ v1.Size = 0 ∧ v1.Capacity = 0 ∧ v1.array_ = none :=
  ⟨_, Reserve_of_traced (Reserve_traced_zero v (Nat.pos_iff_ne_zero.mp hc)), rfl, rfl, rfl⟩

/-- Witness for C10: `Reserve(0)` on `Vector<int>{1, 2, 3, 4}`. -/
theorem C10_Reserve_zero_witness :
    0 < sample_four.Capacity ∧
      ∃ v1, Reserve sample_four 0 = .ok v1 ∧ v1.Size = 0 ∧ v1.Capacity = 0 ∧
        v1.array_ = none :=
  ⟨by decide, C10_Reserve_zero sample_four (by decide)⟩

section PushCopyLemmas

variable {T : Type}

theorem wrap_pred {s : Nat} (h0 : 0 < s) (h1 : s < 2 ^ 64) : wrap (s + SIZE_MAX) = s - 1 := by
  have h2 : s + SIZE_MAX = (s - 1) + 2 ^ 64 := by
    have : SIZE_MAX = 2 ^ 64 - 1 := rfl
    omega
  rw [wrap, h2, Nat.add_mod_right]
  exact Nat.mod_eq_of_lt (by omega)

theorem set_getElem_same : ∀ (l : List T) (i : Nat) (h : i < l.length), l.set i l[i] = l
  | [], _, h => absurd h (by simp)
  | _ :: _, 0, _ => rfl
  | a :: l, i + 1, h => by
    have h1 : i < l.length := by simpa using h
    simp [set_getElem_same l i h1]

/-- On a valid non-empty container the opening of `PushBack(const T&)`, the
store of the argument into the last live slot and the store of the saved
value back, leaves the container as it was; what follows is the growth step
and the store into slot `size_`. -/
theorem PushBack_copy_after_probe [Element T] (v : Vector T) (hv : Valid v) (hne : 0 < v.size_)
    (hfit : v.capacity_ ≤ PTRDIFF_MAX) (fault : Option CopySite) (el1 : Ref T) (x : T)
    (hx : deref .kept v.array_ el1 = .ok x) (hf : fault ≠ some CopySite.probe) :
    PushBack_copy fault v el1 =
      (if v.size_ = v.capacity_ then Reserve_traced v (v.capacity_ * 2)
        else .ok (v, .kept)).bind fun r2 =>
      (deref r2.2 v.array_ el1).bind fun y =>
      if fault = some CopySite.store then .error (.thrown r2.1)
      else
        (wr r2.1.array_ r2.1.size_ y).bind fun a3 =>
        .ok { array_ := a3, size_ := wrap (r2.1.size_ + 1), capacity_ := r2.1.capacity_ } := by
  have hmax : v.capacity_ < 2 ^ 63 := by
    have : PTRDIFF_MAX = 2 ^ 63 - 1 := rfl
    omega
  rcases hv.shape with ⟨_, _, hs⟩ | ⟨b, hb, hlen, hc, hs⟩
  · omega
  have hlast : wrap (v.size_ + SIZE_MAX) = v.size_ - 1 := wrap_pred hne (by omega)
  have hl : v.size_ - 1 < b.length := by omega
  have hl2 : v.size_ - 1 < (b.set (v.size_ - 1) x).length := by simpa using hl
  have hv0 : ({ array_ := some b, size_ := v.size_, capacity_ := v.capacity_ } : Vector T)
      = v := by
    cases v
    simp_all
  have hw : wrap (v.capacity_ * 2) = v.capacity_ * 2 := wrap_of_lt (by omega)
  have hc0 : ¬ v.capacity_ = 0 := by omega
  unfold PushBack_copy
  dsimp only
  rw [hlast, hx]
  simp only [hb, rd_some hl, Except.bind, if_neg hf, wr_some x hl, wr_some _ hl2,
    List.set_set, set_getElem_same b _ hl, if_neg hc0, BlockFate.andThen, hv0, hw]

/-- Pushing a reference to one of the container's own slots onto a full
container: `Reserve` releases the block the reference points into before
`array_[size_] = el1` reads through it. -/
theorem PushBack_copy_own_full [Element T] (v : Vector T) (hv : Valid v) (hne : 0 < v.size_)
    (hfit : v.capacity_ ≤ PTRDIFF_MAX) (hfull : v.size_ = v.capacity_) (i : Nat)
    (hi : i < v.size_) : PushBack_copy none v (Ref.own i) = .error .ub := by
  rcases hv.shape with ⟨_, _, hs⟩ | ⟨b, hb, hlen, hc, hs⟩
  · omega
  have hx : deref BlockFate.kept v.array_ (Ref.own i) = .ok (b.get ⟨i, by omega⟩) := by
    simp only [deref, hb]
    rw [if_neg (by decide)]
    exact rd_some (by omega)
  rw [PushBack_copy_after_probe v hv hne hfit none (Ref.own i) _ hx (by decide),
    if_pos hfull, Reserve_traced_grow v (v.capacity_ * 2) b (by omega) (by omega)
      (by omega) hb hs (by omega)]
  simp [Except.bind, deref]

end PushCopyLemmas

/-- C7 (the code breaks the claim). `v.PushBack(v.Back())` on the full
container `{7}`: the push reallocates, and the argument is read through a
reference into the released block, so the run is undefined; with a free slot
(`{7}` in a two-slot block) the same call yields `{7, 7}`. -/
theorem C7_self_push_on_full :
    PushBack_copy none sample_one (Ref.own 0) = .error .ub ∧
      PushBack_copy none ({ array_ := some [7, 0], size_ := 1, capacity_ := 2 } : Vector Nat)
          (Ref.own 0)
        = .ok { array_ := some [7, 7], size_ := 2, capacity_ := 2 } := by
  constructor <;> decide

section ResizeLemmas

variable {T : Type}

/-- The loop `for (i = lo; i < lo + k; i++) a[i] = d` inside a block. -/
theorem fill_loop (d : T) : ∀ (k i : Nat) (b : List T), i + k ≤ b.length →
    forLoop (fun i a => wr a i d) i k (some b)
      = .ok (some (b.take i ++ List.replicate k d ++ b.drop (i + k))) := by
  intro k
  induction k with
  | zero =>
    intro i b _
    simp [forLoop]
  | succ k ih =>
    intro i b h
    have hi : i < b.length := by omega
    simp only [forLoop, wr_some d hi]
    rw [ih (i + 1) (b.set i d) (by simp; omega), take_succ_set b i d hi]
    have h1 : (b.set i d).drop (i + 1 + k) = b.drop (i + (k + 1)) := by
      rw [List.drop_set_of_lt _ _ (by omega)]
      congr 1
      omega
    rw [h1, List.replicate_succ]
    simp

/-- Growth of the logical length inside a block that is large enough: the
newly exposed positions receive `T()`. -/
theorem Resize_fill_tail [Element T] (w : Vector T) (n : Nat) (hw : Valid w)
    (hgt : w.size_ < n) (hle : n ≤ w.capacity_) :
    ∃ a, forLoop (fun i a => wr a i (Element.dflt : T)) w.size_ (n - w.size_) w.array_
        = .ok a ∧
      live ({ array_ := a, size_ := n, capacity_ := w.capacity_ } : Vector T)
        = w.live ++ List.replicate (n - w.size_) Element.dflt ∧
      Valid ({ array_ := a, size_ := n, capacity_ := w.capacity_ } : Vector T) := by
  rcases hw.shape with ⟨_, hc, _⟩ | ⟨b, hb, hlen, hc, hs⟩
  · omega
  · rw [hb, fill_loop _ _ _ b (by omega)]
    refine ⟨_, rfl, ?_, ?_⟩
    · simp only [live, hb]
      have h1 : (b.take w.size_ ++ List.replicate (n - w.size_) (Element.dflt : T)).length
          = n := by
        simp
        omega
      rw [List.take_append_of_le_length (by omega), List.take_of_length_le (by omega)]
    · refine ⟨hle, ?_, ?_⟩
      · simp
        omega
      · simp [slots]
        omega

end ResizeLemmas

/-- C11. For every valid container `ShrinkToFit()` returns, and afterwards the
capacity equals the size, the size is unchanged, the live elements are the
same values in the same order, and the block is absent iff the size is 0. -/
theorem C11_ShrinkToFit {T : Type} [Element T] (v : Vector T) (hv : Valid v) :
    ∃ v1, ShrinkToFit v = .ok v1 ∧ v1.Capacity = v1.Size ∧ v1.Size = v.Size ∧
      v1.live = v.live ∧ (v1.array_ = none ↔ v.Size = 0) := by
  unfold ShrinkToFit
  dsimp only
  by_cases hs0 : v.size_ = 0
  · refine ⟨{ array_ := none, size_ := v.size_, capacity_ := 0 }, ?_, ?_, rfl, ?_, ?_⟩
    · simp [hs0]
    · simp [Capacity, Size, hs0]
    · unfold live
      cases v.array_ <;> simp [hs0]
    · simp [Size, hs0]
  · rcases hv.shape with ⟨_, _, hs⟩ | ⟨b, hb, hlen, hc, hs⟩
    · exact absurd hs hs0
    rw [if_neg hs0]
    by_cases hfull : v.size_ = v.capacity_
    · rw [if_pos hfull]
      exact ⟨v, rfl, by simp [Capacity, Size, hfull], rfl, rfl, by simp [Size, hs0, hb]⟩
    · rw [if_neg hfull, hb, new_array,
        copy_n_some b (List.replicate v.size_ (Element.dflt : T)) v.size_ hs (by simp)]
      refine ⟨_, rfl, rfl, rfl, ?_, by simp [Size, hs0]⟩
      simp only [live, hb]
      rw [List.take_append_of_le_length (by simp; omega)]
      simp

/-- Witness for C11: after `PushBack` of 1, 2, 3 from empty and two calls of
`PopBack()`, `ShrinkToFit()` gives capacity 1. -/
theorem C11_ShrinkToFit_witness :
    push_all (ctor : Vector Nat) [1, 2, 3] = .ok (sample_pushed, 3) ∧
      ShrinkToFit sample_scenario = .ok { array_ := some [1], size_ := 1, capacity_ := 1 } ∧
      Valid sample_scenario ∧
      ∃ v1, ShrinkToFit sample_scenario = .ok v1 ∧ v1.Capacity = v1.Size ∧
        v1.Size = sample_scenario.Size ∧ v1.live = sample_scenario.live ∧
        (v1.array_ = none ↔ sample_scenario.Size = 0) :=
  ⟨by decide, by decide, ⟨by decide, by decide, by decide⟩,
    C11_ShrinkToFit sample_scenario ⟨by decide, by decide, by decide⟩⟩

/-- C12 as stated fails: with `n = 0 < Size()`, `Resize(0)` on
`Vector<int>{1, 2, 3, 4}` releases the block and leaves capacity 0, not 4. -/
theorem C12_Resize_zero_drops_capacity :
    ¬ ∀ (v : Vector Nat) (n : Nat), n < v.Size →
        ∀ v1, Resize v n = .ok v1 → v1.Capacity = v.Capacity := by
  intro h
  have h1 := h sample_four 0 (by decide) { array_ := none, size_ := 0, capacity_ := 0 }
    (by decide)
  revert h1
  decide

/-- C12 (amended). For every container and every `n` with `0 < n < Size()`,
`Resize(n)` and `Resize(n, value)` return, set the size to `n` and leave the
capacity and the block untouched. -/
theorem C12_Resize_truncates {T : Type} [Element T] (v : Vector T) (n : Nat) (value : T)
    (hpos : 0 < n) (hlt : n < v.Size) :
    ∃ v1, Resize v n = .ok v1 ∧ Resize_value v n value = .ok v1 ∧
      v1.Capacity = v.Capacity ∧ v1.Size = n ∧ v1.array_ = v.array_ := by
  have h0 : ¬ n ≤ 0 := by omega
  have h1 : n ≤ v.size_ := Nat.le_of_lt hlt
  refine ⟨{ v with size_ := n }, ?_, ?_, rfl, rfl, rfl⟩
  · rw [Resize, if_neg h0, if_pos h1]
  · rw [Resize_value, if_neg h0, if_pos h1]

/-- Witness for C12 (amended): `Resize(2)` on `Vector<int>{1, 2, 3, 4}`. -/
theorem C12_Resize_truncates_witness :
    0 < 2 ∧ 2 < sample_four.Size ∧
      ∃ v1, Resize sample_four 2 = .ok v1 ∧ Resize_value sample_four 2 9 = .ok v1 ∧
        v1.Capacity = sample_four.Capacity ∧ v1.Size = 2 ∧
        v1.array_ = sample_four.array_ :=
  ⟨by decide, by decide, C12_Resize_truncates sample_four 2 9 (by decide) (by decide)⟩

/-- C13. For every valid container and every `n > Size()`, `Resize(n)` returns
without any out-of-range access, and afterwards the size is `n`, the capacity
is at least `n`, and the live elements are the old ones, unchanged, followed
by `n - old size` copies of `T()`. -/
theorem C13_Resize_grows_default {T : Type} [Element T] (v : Vector T) (n : Nat)
    (hv : Valid v) (hgt : v.Size < n) :
    ∃ v1, Resize v n = .ok v1 ∧ v1.Size = n ∧ n ≤ v1.Capacity ∧
      v1.live = v.live ++ List.replicate (n - v.Size) Element.dflt := by
  have h0 : ¬ n ≤ 0 := by omega
  have h1 : ¬ n ≤ v.size_ := Nat.not_le_of_lt hgt
  rw [Resize, if_neg h0, if_neg h1]
  by_cases hc : n > v.capacity_
  · obtain ⟨w, hw1, hw2, hw3, hw4, _, hw5⟩ := Reserve_valid v n hv (by omega)
    have hw6 : w.capacity_ = n := by
      rw [hw4, if_pos (Or.inr hc)]
    obtain ⟨a, ha1, ha2, _⟩ := Resize_fill_tail w n hw5 (by rw [hw2]; exact hgt) (by omega)
    rw [if_pos hc, hw1]
    simp only [Except.bind]
    rw [ha1]
    refine ⟨_, rfl, rfl, by simp [Capacity, hw6], ?_⟩
    rw [ha2, hw3, hw2]
    rfl
  · obtain ⟨a, ha1, ha2, _⟩ := Resize_fill_tail v n hv hgt (by omega)
    rw [if_neg hc]
    simp only [Except.bind]
    rw [ha1]
    refine ⟨_, rfl, rfl, by simp only [Capacity]; omega, ?_⟩
    rw [ha2]
    rfl

/-- Witness for C13: `Resize(5)` on the empty container yields five
default-valued elements. -/
theorem C13_Resize_grows_default_witness :
    Resize (ctor : Vector Nat) 5
        = .ok { array_ := some [0, 0, 0, 0, 0], size_ := 5, capacity_ := 5 } ∧
      Valid (ctor : Vector Nat) ∧ (ctor : Vector Nat).Size < 5 ∧
      ∃ v1, Resize (ctor : Vector Nat) 5 = .ok v1 ∧ v1.Size = 5 ∧ 5 ≤ v1.Capacity ∧
        v1.live = (ctor : Vector Nat).live
          ++ List.replicate (5 - (ctor : Vector Nat).Size) Element.dflt :=
  ⟨by decide, ⟨by decide, by decide, by decide⟩, by decide,
    C13_Resize_grows_default ctor 5 ⟨by decide, by decide, by decide⟩ (by decide)⟩

/-- C14 (the code breaks the claim). `Resize(3, x)` on the empty container with
an element type whose move empties its source (`x = {5}` of
`std::vector<int>`): every pass of the loop runs `array_[i] = std::move(value)`,
so only the first new slot receives `x` and the others receive the moved-from
value; for `int`, where a move is a copy, the result is `[x, x, x]`. -/
theorem C14_Resize_value_moves_every_slot :
    Resize_value (ctor : Vector (List Nat)) 3 [5]
        = .ok { array_ := some [[5], [], []], size_ := 3, capacity_ := 3 } ∧
      Resize_value (ctor : Vector Nat) 3 5
        = .ok { array_ := some [5, 5, 5], size_ := 3, capacity_ := 3 } := by
  constructor <;> decide

/-- C15. `PopBack()` returns false iff the container is empty, and then leaves
it as it was; otherwise it returns true, the size is one less, the capacity
and the block are untouched, and the live elements are the old ones without
the last. -/
theorem C15_PopBack {T : Type} (v : Vector T) :
    ((PopBack v).1 = false ↔ v.Size = 0) ∧
      (v.Size = 0 → (PopBack v).2 = v) ∧
      (v.Size ≠ 0 → (PopBack v).1 = true ∧ (PopBack v).2.Size + 1 = v.Size ∧
        (PopBack v).2.Capacity = v.Capacity ∧ (PopBack v).2.array_ = v.array_ ∧
        (PopBack v).2.live = v.live.take (v.Size - 1)) := by
  by_cases hs : v.size_ = 0
  · simp [PopBack, Empty, Size, hs]
  · refine ⟨by simp [PopBack, Empty, Size, hs], fun h => absurd h hs, fun _ => ?_⟩
    refine ⟨by simp [PopBack, Empty, hs], ?_, by simp [PopBack, Empty, hs, Capacity],
      by simp [PopBack, Empty, hs], ?_⟩
    · simp only [PopBack, Empty, hs, Size, decide_False, Bool.false_eq_true, if_false]
      omega
    · simp only [PopBack, Empty, hs, Size, decide_False, Bool.false_eq_true, if_false, live]
      cases v.array_ with
      | none => simp
      | some b =>
        simp only [List.take_take]
        congr 1
        omega

/-- C16. For every valid container and every index `i`: `At(i)` ends by the
out-of-range exception iff `i ≥ Size()`, and then the container is as it was;
when `i < Size()` it returns the element at position `i`, the same as
`operator[](i)`, and the container is as it was. -/
theorem C16_At {T : Type} (v : Vector T) (i : Nat) (hv : Valid v) :
    ((∃ s, At v i = .error (.thrown s)) ↔ v.Size ≤ i) ∧
      (v.Size ≤ i → At v i = .error (.thrown v)) ∧
      (i < v.Size →
        ∃ x, At v i = .ok (x, v) ∧ index v i = .ok x ∧ v.live[i]? = some x) := by
  by_cases hi : i ≥ v.size_
  · have h1 : At v i = .error (.thrown v) := by rw [At, if_pos hi]
    exact ⟨⟨fun _ => hi, fun _ => ⟨v, h1⟩⟩, fun _ => h1, fun h => absurd h (by
      simp only [Size]
      omega)⟩
  · rcases hv.shape with ⟨_, _, hs⟩ | ⟨b, hb, hlen, hc, hs⟩
    · omega
    have hib : i < b.length := by omega
    have h1 : At v i = .ok (b[i], v) := by
      rw [At, if_neg hi, hb, rd_some hib]
      rfl
    refine ⟨⟨fun ⟨s, h⟩ => ?_, fun h => absurd h hi⟩, fun h => absurd h hi, fun _ => ?_⟩
    · rw [h1] at h
      cases h
    · refine ⟨b[i], h1, by rw [index, hb, rd_some hib], ?_⟩
      simp only [live, hb, List.getElem?_take]
      rw [if_pos (by omega), List.getElem?_eq_getElem hib]

/-- Witness for C16: `At(3)` and `At(4)` on `Vector<int>{1, 2, 3, 4}`. -/
theorem C16_At_witness :
    Valid sample_four ∧ At sample_four 4 = .error (.thrown sample_four) ∧
      At sample_four 3 = .ok (4, sample_four) ∧
      (((∃ s, At sample_four 3 = .error (.thrown s)) ↔ sample_four.Size ≤ 3) ∧
        (sample_four.Size ≤ 3 → At sample_four 3 = .error (.thrown sample_four)) ∧
        (3 < sample_four.Size → ∃ x, At sample_four 3 = .ok (x, sample_four) ∧
          index sample_four 3 = .ok x ∧ sample_four.live[3]? = some x)) :=
  ⟨⟨by decide, by decide, by decide⟩, by decide, by decide,
    C16_At sample_four 3 ⟨by decide, by decide, by decide⟩⟩

/-- C17. Move leaves the source empty: after move construction from `b`, and
after move assignment `a = std::move(b)` with `a` and `b` distinct objects, the
destination has `b`'s former size, capacity, block and live elements, and `b`
has size 0, capacity 0 and no block. -/
theorem C17_move_leaves_source_empty {T : Type} (a b : Vector T) :
    ((ctor_move b).1.Size = b.Size ∧ (ctor_move b).1.Capacity = b.Capacity ∧
        (ctor_move b).1.array_ = b.array_ ∧ (ctor_move b).1.live = b.live ∧
        (ctor_move b).2.Size = 0 ∧ (ctor_move b).2.Capacity = 0 ∧
        (ctor_move b).2.array_ = none) ∧
      ((assign_move a b false).1.Size = b.Size ∧
        (assign_move a b false).1.Capacity = b.Capacity ∧
        (assign_move a b false).1.array_ = b.array_ ∧
        (assign_move a b false).1.live = b.live ∧
        (assign_move a b false).2.Size = 0 ∧ (assign_move a b false).2.Capacity = 0 ∧
        (assign_move a b false).2.array_ = none) := by
  refine ⟨⟨rfl, rfl, rfl, rfl, rfl, rfl, rfl⟩, ⟨rfl, rfl, rfl, rfl, rfl, rfl, rfl⟩⟩

section CompareLemmas

variable {T : Type}

theorem rd_of_getElem? {l : List T} {j : Nat} {x : T} (h : l[j]? = some x) :
    rd (some l) j = .ok x := by
  simp [rd, h]

/-- `std::equal` over two ranges that hold the same values returns true. -/
theorem equal_n_same [DecidableEq T] (p q : Option (List T)) :
    ∀ k i, (∀ j, i ≤ j → j < i + k → ∃ x, rd p j = .ok x ∧ rd q j = .ok x) →
      equal_n p q i k = .ok true := by
  intro k
  induction k with
  | zero =>
    intro i _
    rfl
  | succ k ih =>
    intro i h
    obtain ⟨x, hp, hq⟩ := h i (Nat.le_refl i) (by omega)
    simp only [equal_n, hp, hq, Except.bind, if_true]
    exact ih (i + 1) (fun j h1 h2 => h j (by omega) (by omega))

theorem view_zero (a : Option (List T)) (i : Nat) : view a i 0 = [] := by
  cases a <;> simp [view]

theorem view_succ (b : List T) (i k : Nat) (h : i < b.length) :
    view (some b) i (k + 1) = b[i] :: view (some b) (i + 1) k := by
  simp only [view]
  rw [List.drop_eq_getElem_cons h, List.take_succ_cons]

theorem live_eq_view (v : Vector T) : v.live = view v.array_ 0 v.size_ := by
  unfold live view
  cases v.array_ <;> simp

/-- The pointer loop of `std::lexicographical_compare` computes `lexLt` of the
two ranges it is given, when both lie inside their blocks. -/
theorem lexicographical_compare_eq [LinearOrder T] (p q : Option (List T)) :
    ∀ k1 k2 i, i + k1 ≤ blen p → i + k2 ≤ blen q →
      lexicographical_compare p q i k1 k2 = .ok (lexLt (view p i k1) (view q i k2)) := by
  intro k1
  induction k1 with
  | zero =>
    intro k2 i _ hq
    cases k2 with
    | zero => simp [lexicographical_compare, view_zero, lexLt]
    | succ k2 =>
      cases q with
      | none => simp at hq
      | some b =>
        have hi : i < b.length := by
          simp at hq
          omega
        simp [lexicographical_compare, view_zero, view_succ b i k2 hi, lexLt]
  | succ k1 ih =>
    intro k2 i hp hq
    cases p with
    | none => simp at hp
    | some a =>
      have hia : i < a.length := by
        simp at hp
        omega
      cases k2 with
      | zero => simp [lexicographical_compare, view_zero, view_succ a i k1 hia, lexLt]
      | succ k2 =>
        cases q with
        | none => simp at hq
        | some b =>
          have hib : i < b.length := by
            simp at hq
            omega
          simp only [lexicographical_compare, rd_some hia, rd_some hib, Except.bind,
            view_succ a i k1 hia, view_succ b i k2 hib, lexLt]
          by_cases h1 : a[i] < b[i]
          · simp [h1]
          · by_cases h2 : b[i] < a[i]
            · simp [h1, h2]
            · simp only [h1, h2, if_false]
              exact ih k2 (i + 1) (by simp at hp ⊢; omega) (by simp at hq ⊢; omega)

theorem LexLess_nil_nil [LinearOrder T] : ¬ LexLess ([] : List T) [] := by
  intro h
  rcases h with ⟨k, x, y, h1, _⟩ | ⟨h1, _⟩
  · simp at h1
  · simp at h1

theorem LexLess_nil_cons [LinearOrder T] (y : T) (ys : List T) : LexLess [] (y :: ys) :=
  Or.inr ⟨by simp, by simp⟩

theorem LexLess_cons_nil [LinearOrder T] (x : T) (xs : List T) : ¬ LexLess (x :: xs) [] := by
  intro h
  rcases h with ⟨k, a, b, _, h2, _⟩ | ⟨h1, _⟩
  · simp at h2
  · simp at h1

theorem LexLess_cons_cons [LinearOrder T] (x y : T) (xs ys : List T) :
    LexLess (x :: xs) (y :: ys) ↔ x < y ∨ (x = y ∧ LexLess xs ys) := by
  constructor
  · intro h
    rcases h with ⟨k, a, b, h1, h2, h3, h4⟩ | ⟨h1, h2⟩
    · cases k with
      | zero =>
        simp at h1 h2
        subst h1 h2
        exact Or.inl h4
      | succ k =>
        simp at h1 h2 h3
        exact Or.inr ⟨h3.1, Or.inl ⟨k, a, b, h1, h2, h3.2, h4⟩⟩
    · simp at h1 h2
      exact Or.inr ⟨h2.1.symm, Or.inr ⟨h1, h2.2⟩⟩
  · intro h
    rcases h with h | ⟨h1, h2⟩
    · exact Or.inl ⟨0, x, y, by simp, by simp, by simp, h⟩
    · subst h1
      rcases h2 with ⟨k, a, b, h1, h2, h3, h4⟩ | ⟨h1, h2⟩
      · exact Or.inl ⟨k + 1, a, b, by simpa using h1, by simpa using h2, by simpa using h3, h4⟩
      · exact Or.inr ⟨by simpa using h1, by simpa using h2⟩

/-- The comparison loop decides the lexicographic order of the specification. -/
theorem lexLt_iff [LinearOrder T] : ∀ (la lb : List T), lexLt la lb = true ↔ LexLess la lb
  | [], [] => by simpa [lexLt] using LexLess_nil_nil
  | [], y :: ys => by simpa [lexLt] using LexLess_nil_cons y ys
  | x :: xs, [] => by simpa [lexLt] using LexLess_cons_nil x xs
  | x :: xs, y :: ys => by
    rw [LexLess_cons_cons, ← lexLt_iff xs ys]
    simp only [lexLt]
    by_cases h1 : x < y
    · simp [h1]
    · by_cases h2 : y < x
      · have h3 : x ≠ y := fun h => by
          subst h
          exact h1 h2
        simp [h1, h2, h3]
      · have h3 : x = y := le_antisymm (not_lt.mp h2) (not_lt.mp h1)
        simp [h1, h2, h3]

end CompareLemmas

/-- C18. Round-trip copy: for every reachable container `v` the copy
constructor returns a container `c` with `c == v` true under `operator==`, the
same size and the same live elements; `v`, taken by const reference, is the
same state before and after. -/
theorem C18_copy_round_trip {T : Type} [Element T] [DecidableEq T] (v : Vector T)
    (h : Reach v) :
    ∃ c, ctor_copy v = .ok c ∧ op_eq c v = .ok true ∧ c.Size = v.Size ∧
      c.live = v.live := by
  obtain ⟨h1, _⟩ := Reach_Inv h
  unfold ctor_copy
  by_cases hs : v.size_ ≠ 0
  · rw [if_pos hs]
    cases hb : v.array_ with
    | none =>
      simp [slots, hb] at h1
      exact absurd h1 hs
    | some b =>
      have hlen : v.size_ ≤ b.length := by simpa [slots, hb] using h1
      rw [new_array,
        copy_n_some b (List.replicate v.size_ (Element.dflt : T)) v.size_ hlen (by simp)]
      refine ⟨_, rfl, ?_, rfl, ?_⟩
      · simp only [op_eq, ne_eq, not_true_eq_false, if_false, hb]
        apply equal_n_same
        intro j _ hj
        have hjb : j < b.length := by omega
        refine ⟨b[j], rd_of_getElem? ?_, rd_some hjb⟩
        rw [List.getElem?_append_left (by simp; omega), List.getElem?_take,
          if_pos (by omega), List.getElem?_eq_getElem hjb]
      · simp only [live, hb]
        rw [List.take_append_of_le_length (by simp; omega)]
        simp
  · rw [if_neg hs]
    have hs0 : v.size_ = 0 := by omega
    refine ⟨_, rfl, ?_, rfl, ?_⟩
    · simp [op_eq, hs0, equal_n]
    · unfold live
      cases v.array_ <;> simp [hs0]

/-- Witness for C18: the copy of `Vector<int>{1, 2, 3, 4}` after two calls of
`PopBack()`. -/
theorem C18_copy_round_trip_witness :
    Reach sample_popped ∧
      ∃ c, ctor_copy sample_popped = .ok c ∧ op_eq c sample_popped = .ok true ∧
        c.Size = sample_popped.Size ∧ c.live = sample_popped.live :=
  ⟨Reach.by_pop (Reach.by_pop (Reach.by_ctor_list [1, 2, 3, 4])),
    C18_copy_round_trip sample_popped
      (Reach.by_pop (Reach.by_pop (Reach.by_ctor_list [1, 2, 3, 4])))⟩

/-- C19. For all containers `a` and `b` whose live ranges lie inside their
blocks, `a < b` returns the value of the comparison loop on the two sequences
of live elements alone (capacity and the slots past `size_` play no part), and
that value is true iff `a`'s live elements are lexicographically less than
`b`'s: a first position where they differ with `a`'s element less there, or
`a`'s live elements a strict prefix of `b`'s. -/
theorem C19_op_lt_lexicographic {T : Type} [LinearOrder T] (a b : Vector T)
    (ha : a.size_ ≤ a.slots) (hb : b.size_ ≤ b.slots) :
    op_lt a b = .ok (lexLt a.live b.live) ∧
      (lexLt a.live b.live = true ↔ LexLess a.live b.live) := by
  refine ⟨?_, lexLt_iff _ _⟩
  rw [op_lt, live_eq_view, live_eq_view]
  exact lexicographical_compare_eq _ _ _ _ 0 (by simpa [slots] using ha)
    (by simpa [slots] using hb)

/-- Witness for C19: `[1,2] < [1,2,3]` is true, `[1,3] < [1,2,9]` is false and
`[] < [1]` is true. -/
theorem C19_op_lt_lexicographic_witness :
    op_lt (ctor_list [1, 2]) (ctor_list [1, 2, 3]) = .ok true ∧
      op_lt (ctor_list [1, 3]) (ctor_list [1, 2, 9]) = .ok false ∧
      op_lt (ctor_list ([] : List Nat)) (ctor_list [1]) = .ok true ∧
      (ctor_list [1, 2] : Vector Nat).size_ ≤ (ctor_list [1, 2] : Vector Nat).slots ∧
      (ctor_list [1, 2, 3] : Vector Nat).size_ ≤ (ctor_list [1, 2, 3] : Vector Nat).slots ∧
      (op_lt (ctor_list [1, 2]) (ctor_list [1, 2, 3])
          = .ok (lexLt (ctor_list [1, 2] : Vector Nat).live (ctor_list [1, 2, 3]).live) ∧
        (lexLt (ctor_list [1, 2] : Vector Nat).live (ctor_list [1, 2, 3]).live = true ↔
          LexLess (ctor_list [1, 2] : Vector Nat).live (ctor_list [1, 2, 3]).live)) :=
  ⟨by decide, by decide, by decide, by decide, by decide,
    C19_op_lt_lexicographic (ctor_list [1, 2]) (ctor_list [1, 2, 3]) (by decide) (by decide)⟩

section AppendLemmas

variable {T : Type}

/-- Move-form `PushBack` on a valid non-empty container keeps it valid and
doubles the capacity exactly when the block is full. -/
theorem PushBack_move_valid [Element T] (v : Vector T) (x : T) (hv : Valid v)
    (hne : 1 ≤ v.size_) (hcap : v.capacity_ < 2 ^ 64)
    (hdbl : v.size_ = v.capacity_ → v.capacity_ < 2 ^ 63) :
    ∃ v1, PushBack_move v x = .ok v1 ∧ Valid v1 ∧ v1.size_ = v.size_ + 1 ∧
      v1.live = v.live ++ [x] ∧
      v1.capacity_ = (if v.size_ = v.capacity_ then 2 * v.capacity_ else v.capacity_) := by
  obtain ⟨v1, h1, h2, h3, h4, h5, h6⟩ :=
    PushBack_move_spec v x hv.slots_eq hv.size_le hcap hdbl
  have hsz := hv.size_le
  have hc0 : ¬ v.capacity_ = 0 := by omega
  simp only [Size, Capacity, if_neg hc0] at h3 h4 h5
  refine ⟨v1, h1, ⟨?_, ⟨fun h => absurd h h6, fun h => ?_⟩, h5⟩, h3, h2, h4⟩
  · rw [h3, h4]
    split <;> omega
  · rw [h4] at h
    split at h <;> omega

/-- Appending `ys` to a valid container of `n ≥ 1` elements whose capacity is
the power of two `2 ^ k` with `n ≤ 2 ^ k < 2 n`: the capacity stays the least
power of two that holds the elements, and changes once per doubling. -/
theorem push_all_grow [Element T] (ys : List T) :
    ∀ (v : Vector T) (n k : Nat), Valid v → v.size_ = n → 1 ≤ n → v.capacity_ = 2 ^ k →
      n ≤ 2 ^ k → 2 ^ k < 2 * n → n + ys.length ≤ PTRDIFF_MAX →
      ∃ v1 c k1, push_all v ys = .ok (v1, c) ∧ Valid v1 ∧ v1.size_ = n + ys.length ∧
        v1.live = v.live ++ ys ∧ v1.capacity_ = 2 ^ k1 ∧ n + ys.length ≤ 2 ^ k1 ∧
        2 ^ k1 < 2 * (n + ys.length) ∧ k1 = k + c := by
  induction ys with
  | nil =>
    intro v n k hv hn _ hc h1 h2 _
    exact ⟨v, 0, k, rfl, hv, by simpa using hn, by simp, hc, by simpa using h1,
      by simpa using h2, rfl⟩
  | cons y ys ih =>
    intro v n k hv hn hpos hc h1 h2 hfit
    have hmax : PTRDIFF_MAX = 2 ^ 63 - 1 := rfl
    have hlen : (y :: ys).length = ys.length + 1 := rfl
    rw [hlen] at hfit
    obtain ⟨w, hw1, hw2, hw3, hw4, hw5⟩ := PushBack_move_valid v y hv (by omega) (by omega)
      (fun _ => by omega)
    have hpow : 2 ^ (k + 1) = 2 * 2 ^ k := by rw [pow_succ]; omega
    have hk1 : 1 ≤ 2 ^ k := Nat.one_le_two_pow
    by_cases hfull : v.size_ = v.capacity_
    · rw [if_pos hfull] at hw5
      obtain ⟨v1, c, k1, hp, hv1, hs1, hl1, hc1, hle1, hlt1, hk⟩ :=
        ih w (n + 1) (k + 1) hw2 (by omega) (by omega) (by omega) (by omega) (by omega)
          (by omega)
      refine ⟨v1, c + 1, k1, ?_, hv1, by omega, ?_, hc1, by omega, by omega, by omega⟩
      · have hne : ¬ w.capacity_ = v.capacity_ := by omega
        simp only [push_all, hw1, hp, Except.bind, if_neg hne]
      · rw [hl1, hw4]
        simp
    · rw [if_neg hfull] at hw5
      obtain ⟨v1, c, k1, hp, hv1, hs1, hl1, hc1, hle1, hlt1, hk⟩ :=
        ih w (n + 1) k hw2 (by omega) (by omega) (by omega) (by omega) (by omega)
          (by omega)
      refine ⟨v1, c, k1, ?_, hv1, by omega, ?_, hc1, by omega, by omega, by omega⟩
      · simp only [push_all, hw1, hp, Except.bind, if_pos hw5]
        rfl
      · rw [hl1, hw4]
        simp

end AppendLemmas

/-- C20. Append amortization: for every non-empty sequence `xs` of `N`
elements (at most `PTRDIFF_MAX`, so that they fit one array object), `N`
move-form calls of `PushBack` on the default-constructed container return, and
afterwards the size is `N`, the live elements are `xs` in order, and the
capacity is the smallest power of two that is at least `N`, hence less than
`2 N`; the capacity changed `k + 1` times for capacity `2 ^ k`, which is at
most `floor(log2 N) + 2`. -/
theorem C20_append_amortized {T : Type} [Element T] (xs : List T) (hne : xs ≠ [])
    (hfit : xs.length ≤ PTRDIFF_MAX) :
    ∃ v c k, push_all (ctor : Vector T) xs = .ok (v, c) ∧ v.Size = xs.length ∧ v.live = xs ∧
      v.Capacity = 2 ^ k ∧ xs.length ≤ 2 ^ k ∧ (∀ j, xs.length ≤ 2 ^ j → k ≤ j) ∧
      v.Capacity < 2 * xs.length ∧ c = k + 1 ∧ c ≤ Nat.log 2 xs.length + 2 := by
  cases xs with
  | nil => exact absurd rfl hne
  | cons x ys =>
    have hlen : (x :: ys).length = ys.length + 1 := rfl
    rw [hlen] at hfit ⊢
    have hfirst : PushBack_move (ctor : Vector T) x
        = .ok { array_ := some [x], size_ := 1, capacity_ := 1 } := by
      simp [PushBack_move, ctor, Reserve, Reserve_traced, Except.map, Except.bind, new_array,
        wr, wrap]
    obtain ⟨v1, c, k1, hp, _, hs1, hl1, hc1, hle1, hlt1, hk⟩ :=
      push_all_grow ys ({ array_ := some [x], size_ := 1, capacity_ := 1 } : Vector T) 1 0
        ⟨by simp, by simp, by simp [slots]⟩ rfl (by omega) rfl (by simp) (by simp)
        (by omega)
    have hmin : ∀ j, ys.length + 1 ≤ 2 ^ j → k1 ≤ j := by
      intro j hj
      by_contra hcon
      have h1 : 2 ^ (j + 1) ≤ 2 ^ k1 := Nat.pow_le_pow_right (by omega) (by omega)
      have h2 : 2 ^ (j + 1) = 2 * 2 ^ j := by rw [pow_succ]; omega
      omega
    have hlog : k1 ≤ Nat.log 2 (ys.length + 1) + 1 := by
      cases k1 with
      | zero => omega
      | succ k =>
        have h2 : 2 ^ (k + 1) = 2 * 2 ^ k := by rw [pow_succ]; omega
        have h3 : k ≤ Nat.log 2 (ys.length + 1) :=
          Nat.le_log_of_pow_le (by omega) (by omega)
        omega
    refine ⟨v1, c + 1, k1, ?_, by simp only [Size]; omega, ?_, hc1, by omega, hmin,
      by simp only [Capacity]; omega, by omega, by omega⟩
    · have hne1 : ¬ (1 = (ctor : Vector T).capacity_) := by simp [ctor]
      simp only [push_all, hfirst, hp, Except.bind, if_neg hne1]
    · rw [hl1]
      simp [live]

/-- Witness for C20: three pushes from empty take the capacity 1, 2, 4. -/
theorem C20_append_amortized_witness :
    PushBack_move (ctor : Vector Nat) 1
        = .ok { array_ := some [1], size_ := 1, capacity_ := 1 } ∧
      PushBack_move ({ array_ := some [1], size_ := 1, capacity_ := 1 } : Vector Nat) 2
        = .ok { array_ := some [1, 2], size_ := 2, capacity_ := 2 } ∧
      PushBack_move ({ array_ := some [1, 2], size_ := 2, capacity_ := 2 } : Vector Nat) 3
        = .ok sample_pushed ∧
      ([1, 2, 3] : List Nat) ≠ [] ∧ ([1, 2, 3] : List Nat).length ≤ PTRDIFF_MAX ∧
      ∃ v c k, push_all (ctor : Vector Nat) [1, 2, 3] = .ok (v, c) ∧
        v.Size = ([1, 2, 3] : List Nat).length ∧ v.live = [1, 2, 3] ∧
        v.Capacity = 2 ^ k ∧ ([1, 2, 3] : List Nat).length ≤ 2 ^ k ∧
        (∀ j, ([1, 2, 3] : List Nat).length ≤ 2 ^ j → k ≤ j) ∧
        v.Capacity < 2 * ([1, 2, 3] : List Nat).length ∧ c = k + 1 ∧
        c ≤ Nat.log 2 ([1, 2, 3] : List Nat).length + 2 :=
  ⟨by decide, by decide, by decide, by decide, by decide,
    C20_append_amortized [1, 2, 3] (by decide) (by decide)⟩

end Vector

end VectorH
